import Mathlib

/-!
Shallow embedding of the VictoriaMetrics restore engine
(`lib/backup/actions` `Restore.Run`, `lib/backup/fslocal` `FS`) together with
the parts of `lib/backup/common` it uses (`Part`, `SortParts`,
`PartsDifference`, `MaxPartSize`), which are not part of the source tree at
hand and are therefore modelled from the specification.

Machine integers (`uint64`) are modelled as `Nat`: all quantities involved
(offsets, sizes, counters) are byte counts far below `2^64`, and the source
never relies on wrap-around.
-/

namespace VMRestore

/-- `common.Part` — one byte range of one logical file
(`path`, `file_size`, `offset`, `size`, `actual_size`). -/
structure Part where
  path : String
  fileSize : Nat
  offset : Nat
  size : Nat
  actualSize : Nat
deriving DecidableEq, Repr

/-- The Go zero value of `common.Part` (the initial `var pOld common.Part`
in `Restore.Run`). -/
def Part.zero : Part := ⟨"", 0, 0, 0, 0⟩

/-- Byte-wise lexicographic strict order on character lists; this is the
order Go's `<` on `string` induces (comparison of the underlying bytes). -/
def strLtB : List Char → List Char → Bool
  | [], [] => false
  | [], _ :: _ => true
  | _ :: _, [] => false
  | a :: as, b :: bs => (decide (a < b)) || (a == b && strLtB as bs)

/-- Modelled from the spec: the comparison used by `common.SortParts` —
"Parts sort by (path ascending, offset ascending)". -/
def partLe (p q : Part) : Prop :=
  (strLtB p.path.data q.path.data || (p.path == q.path && p.offset ≤ q.offset)) = true

instance : DecidableRel partLe := fun p q => by unfold partLe; infer_instance

/-- Modelled from the spec: `common.SortParts` sorts a part sequence by
`(path ascending, offset ascending)` (a stable sort). -/
def sortParts (ps : List Part) : List Part := ps.insertionSort partLe

/-- Strict version of `partLe`: `(path, offset)` strictly smaller in the
lexicographic order. -/
def partLt (p q : Part) : Prop :=
  (strLtB p.path.data q.path.data || (p.path == q.path && decide (p.offset < q.offset))) = true

/-- Ordering of directory entries by path, used to normalise the file
enumeration order. -/
def fileLe (e f : String × Nat) : Prop :=
  (strLtB e.1.data f.1.data || (e.1 == f.1)) = true

instance : DecidableRel fileLe := fun e f => by unfold fileLe; infer_instance

/-- The file list of a directory in ascending path order; enumeration order
does not affect the part set, and this is the canonical order for stating
facts about the sorted listing. -/
def sortFiles (files : List (String × Nat)) : List (String × Nat) :=
  files.insertionSort fileLe

/-- Modelled from the spec: part identity used for diffing — "two parts are
equal iff `(path, file_size, offset, size)` match. `actual_size` is not part
of identity". -/
def sameKey (p q : Part) : Bool :=
  p.path == q.path && p.fileSize == q.fileSize && p.offset == q.offset && p.size == q.size

/-- Modelled from the spec: `common.PartsDifference` — "`diff(A, B)` returns
the elements of `A` not present in `B`, by `(path, file_size, offset, size)`
identity ... implementations may preserve input order for determinism". -/
def partsDifference (a b : List Part) : List Part :=
  a.filter fun p => !(b.any (sameKey p))

/-- Modelled from the spec: `getPartsSize` / `total_size(S) = Σ p.size`. -/
def getPartsSize (ps : List Part) : Nat := (ps.map (·.size)).sum

/-- The errors `Restore.Run` can return from its validation walk, one
constructor per `fmt.Errorf` site of the loop (carrying the same data the
format string interpolates). -/
inductive RunError where
  /-- "invalid size for %q; got %d; want %d" on a path transition. -/
  | invalidFileSize (path : String) (got want : Nat)
  /-- "there is an overlap in %d bytes between %s and %s". -/
  | overlap (bytes : Nat) (pOld p : Part)
  /-- "there is a gap in %d bytes from file start to %s". -/
  | gapFromStart (bytes : Nat) (p : Part)
  /-- "there is a gap in %d bytes between %s and %s". -/
  | gap (bytes : Nat) (pOld p : Part)
  /-- "invalid size for %s; got %d; want %d". -/
  | invalidPartSize (p : Part) (got want : Nat)
deriving DecidableEq, Repr

/-- The mutable state of the validation loop in `Restore.Run`:
`offset`, `pOld` and `path` (lines 57–59 of the source). -/
structure ValidSt where
  offset : Nat
  pOld : Part
  path : String
deriving DecidableEq, Repr

/-- The per-part checks of the validation loop of `Restore.Run`
(lines 69–81): overlap when the part starts before the expected offset, gap
when it starts after it (reported as "from file start" when the expected
offset is still 0), size mismatch when `Size ≠ ActualSize`; otherwise the
expected offset advances by the part's size. -/
def checkPartAt (st : ValidSt) (p : Part) : Except RunError ValidSt :=
  if p.offset < st.offset then
    Except.error (RunError.overlap (st.offset - p.offset) st.pOld p)
  else if p.offset > st.offset then
    if st.offset = 0 then
      Except.error (RunError.gapFromStart p.offset p)
    else
      Except.error (RunError.gap (p.offset - st.offset) st.pOld p)
  else if p.size ≠ p.actualSize then
    Except.error (RunError.invalidPartSize p p.actualSize p.size)
  else
    Except.ok (ValidSt.mk (st.offset + p.size) st.pOld st.path)

/-- One iteration of the validation loop of `Restore.Run` (lines 60–82):
on a path transition (lines 61–68) check the previous file's closure and
reset `pOld`, `path` and the running offset to the new part; then run the
per-part checks (lines 69–81). -/
def checkPart (st : ValidSt) (p : Part) : Except RunError ValidSt :=
  if p.path ≠ st.path then
    if st.offset ≠ st.pOld.fileSize then
      Except.error (RunError.invalidFileSize st.path st.offset st.pOld.fileSize)
    else
      checkPartAt (ValidSt.mk 0 p p.path) p
  else
    checkPartAt st p

/-- The whole validation walk of `Restore.Run` (lines 56–82) on an already
sorted part list.  Note that, exactly as in the source, nothing is checked
after the loop: the final file's closure is only examined when a later path
transition happens. -/
def validateParts (ps : List Part) : Except RunError Unit :=
  match ps.foldlM checkPart (ValidSt.mk 0 Part.zero "") with
  | Except.error e => Except.error e
  | Except.ok _ => Except.ok ()

/-! ### The local filesystem (`fslocal.FS`)

The destination directory is modelled as an association list from relative
file path to file length in bytes, one entry per regular file.  Directory
structure is not modelled: `RemoveEmptyDirs` touches no regular file, so it
is the identity on this state. -/

/-- The regular files of the destination directory: relative path and byte
length, one entry per file. -/
abbrev FsState := List (String × Nat)

/-- A real directory holds at most one file per path. -/
def KeysNodup (st : FsState) : Prop := (st.map Prod.fst).Nodup

instance decidableKeysNodup (st : FsState) : Decidable (KeysNodup st) := by
  unfold KeysNodup
  infer_instance

/-- `os.Stat`-view of a file's length: the size of the file at `q`,
or `none` when no such file exists. -/
def lookupSize : FsState → String → Option Nat
  | [], _ => none
  | e :: rest, q => if e.1 == q then some e.2 else lookupSize rest q

/-- The slicing loop of `fslocal.FS.ListParts` (lines 66–80) for one file of
length `size`, starting at `offset`: emit chunks of `common.MaxPartSize`
bytes (here the parameter `mps`), the last being the remainder.  The loop
consumes at least one byte per iteration (as `mps ≥ 1` in the source, where
it is a positive constant), so `fuel = size` iterations always suffice;
the structural `fuel` only makes the recursion total, and the source loop
would not terminate at all for `mps = 0`. -/
def sliceFile (mps : Nat) (path : String) (size : Nat) : Nat → Nat → List Part
  | 0, _ => []
  | fuel + 1, offset =>
    if offset < size ∧ 0 < mps then
      let n := min (size - offset) mps
      Part.mk path size offset n n :: sliceFile mps path size fuel (offset + n)
    else []

/-- `fslocal.FS.ListParts`, restricted to one file of length `size`
(lines 56–80): a zero-length file yields the single distinguished empty
part (only `Path` is set, the remaining fields are Go zero values), any
other file is sliced into `mps`-sized chunks. -/
def listPartsFile (mps : Nat) (path : String) (size : Nat) : List Part :=
  if size = 0 then [Part.mk path 0 0 0 0]
  else sliceFile mps path size size 0

/-- `fslocal.FS.ListParts` (lines 31–83): `none` models a destination
directory that does not exist (the source returns an empty part list and no
error); otherwise every regular file of the directory is sliced. -/
def listPartsDir (mps : Nat) (dir : Option FsState) : List Part :=
  match dir with
  | none => []
  | some files => files.flatMap fun e => listPartsFile mps e.1 e.2

/-- `fslocal.FS.DeletePath` (lines 116–141): return the size of the file
observed just before removal and the directory without it; a missing file
is not an error and reports size `0`. -/
def deletePath : FsState → String → Nat × FsState
  | [], _ => (0, [])
  | e :: rest, q =>
    if e.1 == q then (e.2, rest)
    else
      let r := deletePath rest q
      (r.1, e :: r.2)

/-- The deletion loop of `Restore.Run` (lines 93–100): delete each path,
accumulating `deleteSize`. -/
def deleteFiles (st : FsState) (qs : List String) : FsState × Nat :=
  match qs with
  | [] => (st, 0)
  | q :: rest =>
    let r := deletePath st q
    let r2 := deleteFiles r.2 rest
    (r2.1, r.1 + r2.2)

/-- The effect on the directory of downloading one part: `NewWriteCloser`
opens the file at `p.offset` (creating it and extending it as needed,
lines 99–114 of fslocal.go), `DownloadPart` streams `p.size` bytes into it,
`Close` flushes.  The file afterwards extends at least to
`p.offset + p.size`. -/
def writePart : FsState → Part → FsState
  | [], p => [(p.path, p.offset + p.size)]
  | e :: rest, p =>
    if e.1 == p.path then (e.1, max e.2 (p.offset + p.size)) :: rest
    else e :: writePart rest p

/-- The distinct paths of a part list, in first-appearance order (the source
collects them in a `map[string]bool` / `map[string][]common.Part`; iteration
order of a Go map is irrelevant to every property proved below). -/
def dedupPaths (ps : List Part) : List String := (ps.map (·.path)).dedup

/-- The per-path groups the download phase of `Restore.Run` builds
(lines 118–123): one group per destination path. -/
def pathGroups (ps : List Part) : List (List Part) :=
  (dedupPaths ps).map fun q => ps.filter fun p => p.path == q

/-- One download task of `Restore.Run` (lines 126–146), state effect only:
sort the group by offset and write each part in turn. -/
def applyGroup (st : FsState) (g : List Part) : FsState :=
  (sortParts g).foldl writePart st

/-- The whole download phase, state effect only: `runParallelPerPath` hands
each per-path group to exactly one worker; the resulting directory state is
the same as applying the groups in turn, since distinct groups touch
distinct files. -/
def downloadAll (st : FsState) (toCopy : List Part) : FsState :=
  (pathGroups toCopy).foldl applyGroup st

/-- The observable outcome of a successful `Restore.Run`: the final
destination directory and the reported `deleteSize` / `downloadSize`. -/
structure RunResult where
  st : FsState
  deleteSize : Nat
  downloadSize : Nat
deriving DecidableEq, Repr

/-- `Restore.Run` (actions, lines 34–159): list both sides, sort and
validate the source parts (`common.SortParts` sorts in place, so the sorted
list is what the rest of the run uses), delete the files owning stale
parts, re-list the destination, and download the missing parts.
`backupSize` is only logged and is not modelled; `RemoveEmptyDirs` is the
identity on the file map; the source's `len(partsToDelete) > 0` and
`len(partsToCopy) > 0` guards are dropped because deleting no paths and
downloading no parts are already the identity. -/
def run (mps : Nat) (srcParts0 : List Part) (st : FsState) : Except RunError RunResult :=
  let dstParts := listPartsDir mps (some st)
  let srcParts := sortParts srcParts0
  match validateParts srcParts with
  | Except.error e => Except.error e
  | Except.ok _ =>
    let toDelete := partsDifference dstParts srcParts
    let r := deleteFiles st (dedupPaths toDelete)
    let dstParts2 := listPartsDir mps (some r.1)
    let toCopy := partsDifference srcParts dstParts2
    let st2 := downloadAll r.1 toCopy
    Except.ok (RunResult.mk st2 r.2 (getPartsSize toCopy))

/-! ### The download trace (worker body of `Restore.Run`, lines 126–150)

For the ordering claims the download phase is modelled as a trace of
writer open/close events.  Each per-path group is executed by exactly one
worker; the overall trace of a run is an arbitrary interleaving of the
per-group traces. -/

/-- Writer lifecycle events of the download phase: `dst.NewWriteCloser(p)`
and `wc.Close()`. -/
inductive DlEv where
  | openW (p : Part) : DlEv
  | closeW (p : Part) : DlEv
deriving DecidableEq, Repr

/-- The destination path an event is about. -/
def DlEv.path : DlEv → String
  | openW p => p.path
  | closeW p => p.path

/-- The event trace of one download task (lines 128–145): sort the group by
offset, then for each part open a fresh positioned writer and close it
before the next part is started. -/
def taskTrace (g : List Part) : List DlEv :=
  (sortParts g).flatMap fun p => [DlEv.openW p, DlEv.closeW p]

/-- Scheduler choices resolved: `interleaveBy sel gs` consumes the head of
group `sel i` at step `i`, producing the merged trace when the selector is
exhaustive and in range. -/
def interleaveBy : List Nat → List (List DlEv) → Option (List DlEv)
  | [], gs => if gs.all List.isEmpty then some [] else none
  | i :: sel, gs =>
    match gs[i]? with
    | some (e :: rest) => (interleaveBy sel (gs.set i rest)).map (e :: ·)
    | _ => none

/-- Checker for the per-path event stream: at most one writer is ever open,
a writer is closed before the next one opens, and opens happen in ascending
offset order. -/
def wellOrdered : Option Part → Nat → List DlEv → Bool
  | none, _, [] => true
  | none, lastOff, DlEv.openW p :: rest =>
    decide (lastOff ≤ p.offset) && wellOrdered (some p) p.offset rest
  | some p, lastOff, DlEv.closeW q :: rest =>
    p == q && wellOrdered none lastOff rest
  | _, _, _ => false

/-! ### Progress accounting (`statWriter`, lines 161–170) -/

/-- `statWriter.Write`: forward the chunk to the wrapped writer, add the
number of bytes it reports written to the shared counter, and return the
wrapped writer's result unchanged.  The wrapped writer is a function from
the chunk to `(bytes written, optional error)`. -/
def statWrite (w : List Nat → Nat × Option String) (bytesWritten : Nat)
    (chunk : List Nat) : (Nat × Option String) × Nat :=
  let r := w chunk
  (r, bytesWritten + r.1)

/-- Streaming a sequence of chunks through `statWriter.Write`, returning
the final counter value. -/
def writeAll (w : List Nat → Nat × Option String) (bytesWritten : Nat) :
    List (List Nat) → Nat
  | [] => bytesWritten
  | chunk :: rest => writeAll w (statWrite w bytesWritten chunk).2 rest

/-! ### Tiling checker -/

/-- `tilesFrom off L ps` holds when the parts `ps`, in order, tile the byte
range `[off, L)` exactly: each part starts where the previous one ended and
the last one ends at `L`. -/
def tilesFrom (off L : Nat) : List Part → Bool
  | [] => off == L
  | p :: rest => (p.offset == off) && tilesFrom (off + p.size) L rest

/-! ## Order lemmas for the sort comparators -/

theorem string_eq_of_data_eq {a b : String} (h : a.data = b.data) : a = b := by
  cases a; exact congrArg String.mk h

theorem strLtB_irrefl (as : List Char) : strLtB as as = false := by
  induction as with
  | nil => rfl
  | cons a as ih => simp [strLtB, ih, lt_irrefl]

theorem strLtB_trans {as bs cs : List Char} (h1 : strLtB as bs = true)
    (h2 : strLtB bs cs = true) : strLtB as cs = true := by
  induction as generalizing bs cs with
  | nil =>
    cases bs with
    | nil => simp [strLtB] at h1
    | cons b bs =>
      cases cs with
      | nil => simp [strLtB] at h2
      | cons c cs => simp [strLtB]
  | cons a as ih =>
    cases bs with
    | nil => simp [strLtB] at h1
    | cons b bs =>
      cases cs with
      | nil => simp [strLtB] at h2
      | cons c cs =>
        simp only [strLtB, Bool.or_eq_true, Bool.and_eq_true, decide_eq_true_eq,
          beq_iff_eq] at h1 h2 ⊢
        rcases h1 with h1 | ⟨hab, h1⟩
        · rcases h2 with h2 | ⟨hbc, h2⟩
          · exact Or.inl (lt_trans h1 h2)
          · exact Or.inl (hbc ▸ h1)
        · rcases h2 with h2 | ⟨hbc, h2⟩
          · exact Or.inl (hab ▸ h2)
          · exact Or.inr ⟨hab.trans hbc, ih h1 h2⟩

theorem strLtB_connex : ∀ (as bs : List Char),
    as = bs ∨ strLtB as bs = true ∨ strLtB bs as = true
  | [], [] => Or.inl rfl
  | [], _ :: _ => Or.inr (Or.inl rfl)
  | _ :: _, [] => Or.inr (Or.inr rfl)
  | a :: as, b :: bs => by
    rcases lt_trichotomy a b with h | h | h
    · exact Or.inr (Or.inl (by simp [strLtB, h]))
    · subst h
      rcases strLtB_connex as bs with h | h | h
      · exact Or.inl (by rw [h])
      · exact Or.inr (Or.inl (by simp [strLtB, h]))
      · exact Or.inr (Or.inr (by simp [strLtB, h]))
    · exact Or.inr (Or.inr (by simp [strLtB, h]))

theorem strLtB_asymm {as bs : List Char} (h1 : strLtB as bs = true)
    (h2 : strLtB bs as = true) : False := by
  have h := strLtB_trans h1 h2
  rw [strLtB_irrefl] at h
  exact Bool.false_ne_true h

theorem partLe_total (p q : Part) : partLe p q ∨ partLe q p := by
  unfold partLe
  rcases strLtB_connex p.path.data q.path.data with h | h | h
  · have hpq : p.path = q.path := string_eq_of_data_eq h
    rcases Nat.le_total p.offset q.offset with ho | ho
    · exact Or.inl (by simp [hpq, ho])
    · exact Or.inr (by simp [hpq, ho])
  · exact Or.inl (by simp [h])
  · exact Or.inr (by simp [h])

instance : IsTotal Part partLe := ⟨partLe_total⟩

theorem partLe_trans {p q r : Part} (h1 : partLe p q) (h2 : partLe q r) : partLe p r := by
  unfold partLe at h1 h2 ⊢
  simp only [Bool.or_eq_true, Bool.and_eq_true, decide_eq_true_eq, beq_iff_eq] at h1 h2 ⊢
  rcases h1 with h1 | ⟨hpq, h1⟩
  · rcases h2 with h2 | ⟨hqr, h2⟩
    · exact Or.inl (strLtB_trans h1 h2)
    · exact Or.inl (by rw [← congrArg String.data hqr]; exact h1)
  · rcases h2 with h2 | ⟨hqr, h2⟩
    · exact Or.inl (by rw [congrArg String.data hpq]; exact h2)
    · exact Or.inr ⟨hpq.trans hqr, le_trans h1 h2⟩

instance : IsTrans Part partLe := ⟨fun _ _ _ => partLe_trans⟩

theorem partLt_asymm {p q : Part} (h1 : partLt p q) (h2 : partLt q p) : False := by
  unfold partLt at h1 h2
  simp only [Bool.or_eq_true, Bool.and_eq_true, decide_eq_true_eq, beq_iff_eq] at h1 h2
  rcases h1 with h1 | ⟨hpq, h1⟩
  · rcases h2 with h2 | ⟨hqp, h2⟩
    · exact strLtB_asymm h1 h2
    · rw [congrArg String.data hqp] at h1
      simp [strLtB_irrefl] at h1
  · rcases h2 with h2 | ⟨hqp, h2⟩
    · rw [congrArg String.data hpq] at h2
      simp [strLtB_irrefl] at h2
    · omega

instance : IsAntisymm Part partLt := ⟨fun _ _ h1 h2 => (partLt_asymm h1 h2).elim⟩

theorem partLe_of_partLt {p q : Part} (h : partLt p q) : partLe p q := by
  unfold partLt at h
  unfold partLe
  simp only [Bool.or_eq_true, Bool.and_eq_true, decide_eq_true_eq, beq_iff_eq] at h ⊢
  rcases h with h | ⟨hpq, h⟩
  · exact Or.inl h
  · exact Or.inr ⟨hpq, Nat.le_of_lt h⟩

theorem partLt_of_partLe_ne {p q : Part} (h : partLe p q)
    (hne : ¬(p.path = q.path ∧ p.offset = q.offset)) : partLt p q := by
  unfold partLe at h
  unfold partLt
  simp only [Bool.or_eq_true, Bool.and_eq_true, decide_eq_true_eq, beq_iff_eq] at h ⊢
  rcases h with h | ⟨hpq, h⟩
  · exact Or.inl h
  · refine Or.inr ⟨hpq, ?_⟩
    rcases Nat.lt_or_ge p.offset q.offset with ho | ho
    · exact ho
    · exact absurd ⟨hpq, Nat.le_antisymm h ho⟩ hne

theorem offset_le_of_partLe_same_path {p q : Part} (h : partLe p q)
    (hpath : p.path = q.path) : p.offset ≤ q.offset := by
  unfold partLe at h
  simp only [Bool.or_eq_true, Bool.and_eq_true, decide_eq_true_eq, beq_iff_eq] at h
  rcases h with h | ⟨_, h⟩
  · rw [congrArg String.data hpath] at h
    simp [strLtB_irrefl] at h
  · exact h

/-! ## Part identity and set difference -/

theorem sameKey_iff {p q : Part} : sameKey p q = true ↔
    p.path = q.path ∧ p.fileSize = q.fileSize ∧ p.offset = q.offset ∧ p.size = q.size := by
  simp [sameKey, Bool.and_eq_true, beq_iff_eq, and_assoc]

theorem sameKey_refl (p : Part) : sameKey p p = true := by
  simp [sameKey]

theorem mem_partsDifference {p : Part} {a b : List Part} :
    p ∈ partsDifference a b ↔ p ∈ a ∧ ¬ ∃ q ∈ b, sameKey p q = true := by
  simp [partsDifference, List.mem_filter, List.any_eq_true]

theorem partsDifference_nil_iff {a b : List Part} :
    partsDifference a b = [] ↔ ∀ p ∈ a, ∃ q ∈ b, sameKey p q = true := by
  constructor
  · intro h p hp
    by_contra hc
    have : p ∈ partsDifference a b := mem_partsDifference.mpr ⟨hp, hc⟩
    simp [h] at this
  · intro h
    unfold partsDifference
    rw [List.filter_eq_nil_iff]
    intro p hp
    simp [List.any_eq_true]
    exact h p hp

/-- Claim C3: `partsDifference A B` returns exactly the elements of `A` not
present in `B` by `(path, file_size, offset, size)` identity (`actual_size`
ignored); each result element is in `A` and not in `B`, and the result
together with the elements of `A` present in `B` reconstructs `A`. -/
theorem partsDifference_diff_correct (A B : List Part) :
    (∀ p ∈ partsDifference A B, p ∈ A ∧ ¬ ∃ q ∈ B, sameKey p q = true) ∧
    (partsDifference A B ++ A.filter fun p => B.any (sameKey p)).Perm A := by
  constructor
  · intro p hp
    exact mem_partsDifference.mp hp
  · exact List.perm_append_comm.trans
      (List.filter_append_perm (fun p => B.any (sameKey p)) A)

/-! ## Lemmas about the destination directory state -/

theorem lookupSize_eq_none_iff {st : FsState} {q : String} :
    lookupSize st q = none ↔ q ∉ st.map Prod.fst := by
  induction st with
  | nil => simp [lookupSize]
  | cons e rest ih =>
    by_cases h : e.1 = q
    · simp [lookupSize, h]
    · simp only [lookupSize, beq_iff_eq, if_neg h, List.map_cons, List.mem_cons, ih]
      tauto

theorem lookupSize_some_mem {st : FsState} {q : String} {n : Nat}
    (h : lookupSize st q = some n) : (q, n) ∈ st := by
  induction st with
  | nil => simp [lookupSize] at h
  | cons e rest ih =>
    by_cases he : e.1 = q
    · simp only [lookupSize, beq_iff_eq, if_pos he] at h
      cases h
      cases e with
      | mk a b =>
        cases he
        exact List.mem_cons_self _ _
    · simp only [lookupSize, beq_iff_eq, if_neg he] at h
      exact List.mem_cons_of_mem _ (ih h)

theorem mem_lookupSize {st : FsState} (hnd : KeysNodup st) {e : String × Nat}
    (he : e ∈ st) : lookupSize st e.1 = some e.2 := by
  induction st with
  | nil => simp at he
  | cons f rest ih =>
    rw [KeysNodup, List.map_cons, List.nodup_cons] at hnd
    rw [List.mem_cons] at he
    rcases he with he | he
    · subst he
      simp [lookupSize]
    · have hne : f.1 ≠ e.1 := by
        intro hc
        exact hnd.1 (hc ▸ List.mem_map_of_mem Prod.fst he)
      simp only [lookupSize, beq_iff_eq, if_neg hne]
      exact ih hnd.2 he

theorem deletePath_fst (st : FsState) (q : String) :
    (deletePath st q).1 = (lookupSize st q).getD 0 := by
  induction st with
  | nil => rfl
  | cons e rest ih =>
    by_cases h : e.1 = q
    · simp [deletePath, lookupSize, h]
    · simp [deletePath, lookupSize, h, ih]

theorem deletePath_none {st : FsState} {q : String}
    (h : lookupSize st q = none) : deletePath st q = (0, st) := by
  induction st with
  | nil => rfl
  | cons e rest ih =>
    by_cases he : e.1 = q
    · simp [lookupSize, he] at h
    · simp only [lookupSize, beq_iff_eq, if_neg he] at h
      simp [deletePath, he, ih h]

theorem lookupSize_deletePath_self {st : FsState} (hnd : KeysNodup st)
    (q : String) : lookupSize (deletePath st q).2 q = none := by
  induction st with
  | nil => rfl
  | cons e rest ih =>
    rw [KeysNodup, List.map_cons, List.nodup_cons] at hnd
    by_cases he : e.1 = q
    · simp only [deletePath, beq_iff_eq, if_pos he]
      rw [lookupSize_eq_none_iff]
      rw [he] at hnd
      exact hnd.1
    · simp only [deletePath, beq_iff_eq, if_neg he, lookupSize, if_neg he]
      exact ih hnd.2

theorem lookupSize_deletePath_other {st : FsState} {q q' : String} (h : q' ≠ q) :
    lookupSize (deletePath st q).2 q' = lookupSize st q' := by
  induction st with
  | nil => rfl
  | cons e rest ih =>
    by_cases he : e.1 = q
    · simp only [deletePath, beq_iff_eq, if_pos he, lookupSize]
      rw [if_neg (by rw [he]; exact fun hc => h hc.symm)]
    · simp only [deletePath, beq_iff_eq, if_neg he, lookupSize]
      by_cases he' : e.1 = q'
      · simp [he']
      · simp [he', ih]

theorem keys_deletePath_sublist (st : FsState) (q : String) :
    ((deletePath st q).2.map Prod.fst).Sublist (st.map Prod.fst) := by
  induction st with
  | nil => simp [deletePath]
  | cons e rest ih =>
    by_cases he : e.1 = q
    · simp only [deletePath, beq_iff_eq, if_pos he, List.map_cons]
      exact (List.sublist_cons_self _ _)
    · simp only [deletePath, beq_iff_eq, if_neg he, List.map_cons]
      exact ih.cons₂ _

theorem keysNodup_deletePath {st : FsState} (hnd : KeysNodup st) (q : String) :
    KeysNodup (deletePath st q).2 :=
  (keys_deletePath_sublist st q).nodup hnd

theorem keysNodup_deleteFiles {st : FsState} (hnd : KeysNodup st) (qs : List String) :
    KeysNodup (deleteFiles st qs).1 := by
  induction qs generalizing st with
  | nil => exact hnd
  | cons q rest ih => exact ih (keysNodup_deletePath hnd q)

theorem deleteFiles_lookup {st : FsState} (hnd : KeysNodup st) (qs : List String)
    (q : String) :
    lookupSize (deleteFiles st qs).1 q = if q ∈ qs then none else lookupSize st q := by
  induction qs generalizing st with
  | nil => simp [deleteFiles]
  | cons q0 rest ih =>
    show lookupSize (deleteFiles (deletePath st q0).2 rest).1 q = _
    rw [ih (keysNodup_deletePath hnd q0)]
    by_cases hq : q = q0
    · subst hq
      by_cases hr : q ∈ rest
      · simp [hr]
      · simp only [if_neg hr, List.mem_cons, true_or, if_pos]
        exact lookupSize_deletePath_self hnd q
    · rw [lookupSize_deletePath_other hq]
      by_cases hr : q ∈ rest
      · simp [hr]
      · simp [hr, hq]

theorem deleteFiles_snd {st : FsState} (hnd : KeysNodup st) {qs : List String}
    (hqs : qs.Nodup) :
    (deleteFiles st qs).2 = (qs.map fun q => (lookupSize st q).getD 0).sum := by
  induction qs generalizing st with
  | nil => rfl
  | cons q0 rest ih =>
    rw [List.nodup_cons] at hqs
    show (deletePath st q0).1 + (deleteFiles (deletePath st q0).2 rest).2 = _
    rw [deletePath_fst, ih (keysNodup_deletePath hnd q0) hqs.2]
    simp only [List.map_cons, List.sum_cons]
    congr 1
    refine congrArg List.sum (List.map_congr_left fun q hq => ?_)
    rw [lookupSize_deletePath_other fun hc => hqs.1 (by rw [← hc]; exact hq)]

theorem lookupSize_writePart_self (st : FsState) (p : Part) :
    lookupSize (writePart st p) p.path =
      some (max ((lookupSize st p.path).getD 0) (p.offset + p.size)) := by
  induction st with
  | nil => simp [writePart, lookupSize]
  | cons e rest ih =>
    by_cases he : e.1 = p.path
    · simp [writePart, lookupSize, he]
    · simp only [writePart, beq_iff_eq, if_neg he, lookupSize, if_neg he]
      exact ih

theorem lookupSize_writePart_other {st : FsState} {p : Part} {q : String}
    (h : q ≠ p.path) : lookupSize (writePart st p) q = lookupSize st q := by
  induction st with
  | nil =>
    have hb : (p.path == q) = false := beq_eq_false_iff_ne.mpr fun hc => h hc.symm
    simp [writePart, lookupSize, hb]
  | cons e rest ih =>
    by_cases he : e.1 = p.path
    · have he' : e.1 ≠ q := fun hc => h (by rw [← hc]; exact he)
      simp only [writePart, beq_iff_eq, if_pos he, lookupSize]
      rw [if_neg fun hc => he' hc, if_neg fun hc => he' hc]
    · simp only [writePart, beq_iff_eq, if_neg he, lookupSize]
      by_cases he' : e.1 = q
      · simp [he']
      · simp [he', ih]

theorem mem_keys_writePart {st : FsState} {p : Part} {q : String}
    (h : q ∈ (writePart st p).map Prod.fst) : q ∈ st.map Prod.fst ∨ q = p.path := by
  induction st with
  | nil =>
    simp only [writePart, List.map_cons, List.map_nil, List.mem_cons] at h
    rcases h with h | h
    · exact Or.inr h
    · simp at h
  | cons e rest ih =>
    by_cases he : e.1 = p.path
    · simp only [writePart, beq_iff_eq, if_pos he, List.map_cons, List.mem_cons] at h
      rcases h with h | h
      · exact Or.inl (by simp [h])
      · exact Or.inl (by simp [h])
    · simp only [writePart, beq_iff_eq, if_neg he, List.map_cons, List.mem_cons] at h
      rcases h with h | h
      · exact Or.inl (by simp [h])
      · rcases ih h with h' | h'
        · exact Or.inl (by simp [h'])
        · exact Or.inr h'

theorem keysNodup_writePart {st : FsState} (hnd : KeysNodup st) (p : Part) :
    KeysNodup (writePart st p) := by
  induction st with
  | nil => simp [writePart, KeysNodup]
  | cons e rest ih =>
    rw [KeysNodup, List.map_cons, List.nodup_cons] at hnd
    by_cases he : e.1 = p.path
    · simp only [writePart, beq_iff_eq, if_pos he]
      rw [KeysNodup, List.map_cons, List.nodup_cons]
      exact hnd
    · simp only [writePart, beq_iff_eq, if_neg he]
      rw [KeysNodup, List.map_cons, List.nodup_cons]
      refine ⟨fun hc => ?_, ih hnd.2⟩
      rcases mem_keys_writePart hc with h' | h'
      · exact hnd.1 h'
      · exact he h'

/-- Claim C8: `FS.DeletePath` deletes the single regular file at the given
path and returns the size observed immediately before removal; when no file
exists there it returns size `0` and leaves everything untouched — absence
is never a failure.  Files at other paths are unaffected. -/
theorem deletePath_delete_semantics (st : FsState) (q : String) (hnd : KeysNodup st) :
    (lookupSize st q = none → deletePath st q = (0, st)) ∧
    (∀ L, lookupSize st q = some L →
      (deletePath st q).1 = L ∧ lookupSize (deletePath st q).2 q = none) ∧
    (∀ q', q' ≠ q → lookupSize (deletePath st q).2 q' = lookupSize st q') := by
  refine ⟨deletePath_none, fun L hL => ⟨?_, lookupSize_deletePath_self hnd q⟩,
    fun q' hq' => lookupSize_deletePath_other hq'⟩
  rw [deletePath_fst, hL]
  rfl

/-- Witness for C8 at a concrete directory: deleting `a` from a directory
holding `a` (3 bytes) and `b` (7 bytes) reports size 3, removes `a` and
leaves `b`; deleting the absent `c` reports 0 and changes nothing. -/
theorem deletePath_delete_semantics_witness :
    (deletePath [("a", 3), ("b", 7)] "a").1 = 3 ∧
    lookupSize (deletePath [("a", 3), ("b", 7)] "a").2 "a" = none ∧
    lookupSize (deletePath [("a", 3), ("b", 7)] "a").2 "b" = some 7 ∧
    deletePath [("a", 3), ("b", 7)] "c" = (0, [("a", 3), ("b", 7)]) := by
  have h := deletePath_delete_semantics [("a", 3), ("b", 7)] "a" (by decide)
  have h3 := h.2.1 3 (by decide)
  have hb := h.2.2 "b" (by decide)
  have hc := (deletePath_delete_semantics [("a", 3), ("b", 7)] "c" (by decide)).1 (by decide)
  exact ⟨h3.1, h3.2, by rw [hb]; rfl, hc⟩

/-! ## Lemmas about the local listing (`FS.ListParts`) -/

theorem sliceFile_stop {mps : Nat} {path : String} {L : Nat} (fuel : Nat) {off : Nat}
    (h : ¬ off < L) : sliceFile mps path L fuel off = [] := by
  cases fuel with
  | zero => rfl
  | succ fuel => simp [sliceFile, h]

theorem sliceFile_tiles {mps : Nat} (hm : 0 < mps) (path : String) (L : Nat) :
    ∀ fuel off, L - off ≤ fuel → off ≤ L →
      tilesFrom off L (sliceFile mps path L fuel off) = true := by
  intro fuel
  induction fuel with
  | zero =>
    intro off h1 h2
    have : off = L := by omega
    subst this
    simp [sliceFile, tilesFrom]
  | succ fuel ih =>
    intro off h1 h2
    by_cases hoff : off < L
    · have hn1 : 1 ≤ min (L - off) mps := le_min (by omega) hm
      have hn2 : min (L - off) mps ≤ L - off := min_le_left _ _
      simp only [sliceFile, hoff, hm, and_self, if_true, tilesFrom, beq_self_eq_true,
        Bool.true_and]
      exact ih (off + min (L - off) mps) (by omega) (by omega)
    · have : off = L := by omega
      subst this
      simp [sliceFile, tilesFrom]

theorem listPartsFile_tiles {mps : Nat} (hm : 0 < mps) (path : String) (L : Nat) :
    tilesFrom 0 L (listPartsFile mps path L) = true := by
  by_cases hL : L = 0
  · subst hL
    simp [listPartsFile, tilesFrom]
  · simp only [listPartsFile, if_neg hL]
    exact sliceFile_tiles hm path L L 0 (by omega) (by omega)

theorem mem_sliceFile {mps : Nat} {path : String} {L : Nat} :
    ∀ {fuel off p}, p ∈ sliceFile mps path L fuel off →
      p.path = path ∧ p.fileSize = L ∧ p.actualSize = p.size ∧ p.size ≤ mps ∧
        0 < p.size ∧ off ≤ p.offset ∧ (p.size = mps ∨ p.offset + p.size = L) := by
  intro fuel
  induction fuel with
  | zero => intro off p h; simp [sliceFile] at h
  | succ fuel ih =>
    intro off p h
    by_cases hc : off < L ∧ 0 < mps
    · simp only [sliceFile, if_pos hc, List.mem_cons] at h
      rcases h with h | h
      · subst h
        refine ⟨rfl, rfl, rfl, min_le_right _ _, le_min (by omega) hc.2, le_refl _, ?_⟩
        rcases Nat.le_total (L - off) mps with hle | hle
        · exact Or.inr (by simp [min_eq_left hle]; omega)
        · exact Or.inl (min_eq_right hle)
      · have := ih h
        have hle : off ≤ off + min (L - off) mps := Nat.le_add_right _ _
        exact ⟨this.1, this.2.1, this.2.2.1, this.2.2.2.1, this.2.2.2.2.1,
          le_trans hle this.2.2.2.2.2.1, this.2.2.2.2.2.2⟩
    · rw [sliceFile, if_neg hc] at h
      simp at h

theorem mem_listPartsFile {mps : Nat} {path : String} {L : Nat} {p : Part}
    (h : p ∈ listPartsFile mps path L) :
    p.path = path ∧ p.fileSize = L ∧ p.actualSize = p.size ∧ p.size ≤ mps ∧
      (p.size = mps ∨ p.offset + p.size = L) := by
  by_cases hL : L = 0
  · subst hL
    rw [listPartsFile, if_pos rfl, List.mem_singleton] at h
    subst h
    simp
  · rw [listPartsFile, if_neg hL] at h
    have := mem_sliceFile h
    exact ⟨this.1, this.2.1, this.2.2.1, this.2.2.2.1, this.2.2.2.2.2.2⟩

theorem mem_listPartsFile_pos {mps : Nat} {path : String} {L : Nat} {p : Part}
    (hL : L ≠ 0) (h : p ∈ listPartsFile mps path L) : 0 < p.size := by
  rw [listPartsFile, if_neg hL] at h
  exact (mem_sliceFile h).2.2.2.2.1

theorem listPartsFile_ne_nil {mps : Nat} (hm : 0 < mps) (path : String) (L : Nat) :
    listPartsFile mps path L ≠ [] := by
  by_cases hL : L = 0
  · subst hL
    simp [listPartsFile]
  · rw [listPartsFile, if_neg hL]
    cases L with
    | zero => exact absurd rfl hL
    | succ k =>
      simp [sliceFile, Nat.succ_pos, hm]

theorem pairwise_offsets_sliceFile {mps : Nat} {path : String} {L : Nat} :
    ∀ fuel off, List.Pairwise (fun p q => p.offset < q.offset)
      (sliceFile mps path L fuel off) := by
  intro fuel
  induction fuel with
  | zero => intro off; simp [sliceFile]
  | succ fuel ih =>
    intro off
    by_cases hc : off < L ∧ 0 < mps
    · simp only [sliceFile, if_pos hc]
      refine List.pairwise_cons.mpr ⟨fun q hq => ?_, ih _⟩
      have h1 : 1 ≤ min (L - off) mps := le_min (by omega) hc.2
      have h2 := (mem_sliceFile hq).2.2.2.2.2.1
      simp only
      omega
    · rw [sliceFile, if_neg hc]
      simp

theorem pairwise_offsets_listPartsFile {mps : Nat} {path : String} {L : Nat} :
    List.Pairwise (fun p q => p.offset < q.offset) (listPartsFile mps path L) := by
  by_cases hL : L = 0
  · subst hL
    simp [listPartsFile]
  · rw [listPartsFile, if_neg hL]
    exact pairwise_offsets_sliceFile _ 0

theorem tilesFrom_off_le {L : Nat} : ∀ {ps : List Part} {off : Nat},
    tilesFrom off L ps = true → off ≤ L := by
  intro ps
  induction ps with
  | nil =>
    intro off h
    simp only [tilesFrom, beq_iff_eq] at h
    omega
  | cons p rest ih =>
    intro off h
    simp only [tilesFrom, Bool.and_eq_true, beq_iff_eq] at h
    have := ih h.2
    omega

theorem foldl_max_end {L : Nat} : ∀ {ps : List Part} {off : Nat},
    tilesFrom off L ps = true → ps ≠ [] → ∀ a : Nat,
      ps.foldl (fun acc p => max acc (p.offset + p.size)) a = max a L := by
  intro ps
  induction ps with
  | nil => intro off _ h; exact absurd rfl h
  | cons p rest ih =>
    intro off h _ a
    simp only [tilesFrom, Bool.and_eq_true, beq_iff_eq] at h
    cases rest with
    | nil =>
      simp only [tilesFrom, beq_iff_eq] at h
      simp only [List.foldl_cons, List.foldl_nil]
      congr 1
      omega
    | cons q rest' =>
      have step : List.foldl (fun acc p => max acc (p.offset + p.size)) a (p :: q :: rest')
          = List.foldl (fun acc p => max acc (p.offset + p.size))
              (max a (p.offset + p.size)) (q :: rest') := rfl
      rw [step, ih h.2 (by simp) (max a (p.offset + p.size))]
      have hle : p.offset + p.size ≤ L := by
        have := tilesFrom_off_le h.2
        omega
      rw [max_assoc, max_eq_right hle]

theorem canonical_part_eq {mps : Nat} {path path' : String} {L L' : Nat} {p p' : Part}
    (h : p ∈ listPartsFile mps path L) (h' : p' ∈ listPartsFile mps path' L')
    (hk : sameKey p p' = true) : p = p' := by
  rcases sameKey_iff.mp hk with ⟨h1, h2, h3, h4⟩
  have ha := (mem_listPartsFile h).2.2.1
  have ha' := (mem_listPartsFile h').2.2.1
  cases p
  cases p'
  simp_all

/-- Claim C1 is false of the code: the validation loop of `Restore.Run`
checks a file's closure only when a LATER path begins, and nothing is
checked after the loop, so a source whose final file does not sum to its
`file_size` passes validation and the run proceeds to delete/download
(here: file `f` with `file_size = 10` covered only by `{offset 0, size 4}`
is accepted and downloaded, yielding a 4-byte `f`).  The same gap in a
non-final file IS caught by the transition check, confirming the intent
the code's own comment states ("They must cover the whole files"). -/
theorem run_accepts_final_file_gap :
    validateParts (sortParts [Part.mk "f" 10 0 4 4]) = Except.ok () ∧
    run 100 [Part.mk "f" 10 0 4 4] [] = Except.ok (RunResult.mk [("f", 4)] 0 4) ∧
    validateParts (sortParts [Part.mk "f" 10 0 4 4, Part.mk "g" 5 0 5 5]) =
      Except.error (RunError.invalidFileSize "f" 4 10) :=
  ⟨rfl, rfl, rfl⟩

/-- Claim C2: one step of the validation walk, on a part of the file
currently being tracked, rejects exactly when the part's offset is below
the expected offset (overlap of `expected − offset` bytes), above it (gap
of `offset − expected` bytes, reported as from file start when
`expected = 0`), or its `actual_size` differs from its `size`; otherwise it
advances the expected offset by the part's size. -/
theorem checkPart_step_characterization (st : ValidSt) (p : Part)
    (hpath : p.path = st.path) :
    ((∃ e, checkPart st p = Except.error e) ↔
      p.offset ≠ st.offset ∨ p.size ≠ p.actualSize) ∧
    (p.offset < st.offset →
      checkPart st p = Except.error (RunError.overlap (st.offset - p.offset) st.pOld p)) ∧
    (st.offset < p.offset → st.offset = 0 →
      checkPart st p = Except.error (RunError.gapFromStart p.offset p)) ∧
    (st.offset < p.offset → st.offset ≠ 0 →
      checkPart st p = Except.error (RunError.gap (p.offset - st.offset) st.pOld p)) ∧
    (p.offset = st.offset → p.size ≠ p.actualSize →
      checkPart st p = Except.error (RunError.invalidPartSize p p.actualSize p.size)) ∧
    (p.offset = st.offset → p.size = p.actualSize →
      checkPart st p = Except.ok (ValidSt.mk (st.offset + p.size) st.pOld st.path)) := by
  have hstep : checkPart st p = checkPartAt st p := by
    rw [checkPart, if_neg (by simp [hpath])]
  rw [hstep]
  unfold checkPartAt
  refine ⟨?_, ?_, ?_, ?_, ?_, ?_⟩
  · constructor
    · rintro ⟨e, he⟩
      by_cases h1 : p.offset < st.offset
      · exact Or.inl (by omega)
      · by_cases h2 : p.offset > st.offset
        · exact Or.inl (by omega)
        · by_cases h3 : p.size ≠ p.actualSize
          · exact Or.inr h3
          · rw [if_neg h1, if_neg h2, if_neg h3] at he
            exact absurd he (by simp)
    · intro h
      by_cases h1 : p.offset < st.offset
      · exact ⟨_, by rw [if_pos h1]⟩
      · by_cases h2 : p.offset > st.offset
        · by_cases h3 : st.offset = 0
          · exact ⟨_, by rw [if_neg h1, if_pos h2, if_pos h3]⟩
          · exact ⟨_, by rw [if_neg h1, if_pos h2, if_neg h3]⟩
        · have h3 : p.size ≠ p.actualSize := by
            rcases h with h | h
            · omega
            · exact h
          exact ⟨_, by rw [if_neg h1, if_neg h2, if_pos h3]⟩
  · intro h
    rw [if_pos h]
  · intro h1 h2
    rw [if_neg (by omega), if_pos h1, if_pos h2]
  · intro h1 h2
    rw [if_neg (by omega), if_pos h1, if_neg h2]
  · intro h1 h2
    rw [if_neg (by omega), if_neg (by omega), if_pos h2]
  · intro h1 h2
    rw [if_neg (by omega), if_neg (by omega), if_neg (by simp [h2])]

/-- Witness for C2 at concrete states: an overlap, a gap from file start, a
mid-file gap, a size mismatch and a successful advance, all on path `f`. -/
theorem checkPart_step_characterization_witness :
    checkPart (ValidSt.mk 4 (Part.mk "f" 10 0 4 4) "f") (Part.mk "f" 10 2 2 2) =
      Except.error (RunError.overlap 2 (Part.mk "f" 10 0 4 4) (Part.mk "f" 10 2 2 2)) ∧
    checkPart (ValidSt.mk 0 (Part.mk "f" 10 0 4 4) "f") (Part.mk "f" 10 3 2 2) =
      Except.error (RunError.gapFromStart 3 (Part.mk "f" 10 3 2 2)) ∧
    checkPart (ValidSt.mk 4 (Part.mk "f" 10 0 4 4) "f") (Part.mk "f" 10 7 2 2) =
      Except.error (RunError.gap 3 (Part.mk "f" 10 0 4 4) (Part.mk "f" 10 7 2 2)) ∧
    checkPart (ValidSt.mk 4 (Part.mk "f" 10 0 4 4) "f") (Part.mk "f" 10 4 2 1) =
      Except.error (RunError.invalidPartSize (Part.mk "f" 10 4 2 1) 1 2) ∧
    checkPart (ValidSt.mk 4 (Part.mk "f" 10 0 4 4) "f") (Part.mk "f" 10 4 2 2) =
      Except.ok (ValidSt.mk 6 (Part.mk "f" 10 0 4 4) "f") := by
  refine ⟨?_, ?_, ?_, ?_, ?_⟩
  · exact (checkPart_step_characterization _ _ rfl).2.1 (by decide)
  · exact (checkPart_step_characterization _ _ rfl).2.2.1 (by decide) (by decide)
  · exact (checkPart_step_characterization _ _ rfl).2.2.2.1 (by decide) (by decide)
  · exact (checkPart_step_characterization _ _ rfl).2.2.2.2.1 (by decide) (by decide)
  · exact (checkPart_step_characterization _ _ rfl).2.2.2.2.2 (by decide) (by decide)

theorem listPartsFile_exact {mps : Nat} (hm : 0 < mps) (path : String) :
    listPartsFile mps path mps = [Part.mk path mps 0 mps mps] := by
  cases mps with
  | zero => omega
  | succ k =>
    have h1 : sliceFile (k + 1) path (k + 1) (k + 1) 0 =
        Part.mk path (k + 1) 0 (k + 1) (k + 1) :: sliceFile (k + 1) path (k + 1) k (k + 1) := by
      simp only [sliceFile]
      rw [if_pos ⟨Nat.succ_pos k, Nat.succ_pos k⟩]
      simp
    rw [listPartsFile, if_neg (Nat.succ_ne_zero k), h1,
      sliceFile_stop k (show ¬ k + 1 < k + 1 by omega)]

theorem listPartsFile_exact_succ {mps : Nat} (hm : 0 < mps) (path : String) :
    listPartsFile mps path (mps + 1) =
      [Part.mk path (mps + 1) 0 mps mps, Part.mk path (mps + 1) mps 1 1] := by
  cases mps with
  | zero => omega
  | succ k =>
    have h1 : sliceFile (k + 1) path (k + 2) (k + 2) 0 =
        Part.mk path (k + 2) 0 (k + 1) (k + 1) ::
          sliceFile (k + 1) path (k + 2) (k + 1) (k + 1) := by
      simp only [sliceFile]
      rw [if_pos ⟨by omega, Nat.succ_pos k⟩]
      have hmin : min (k + 2 - 0) (k + 1) = k + 1 := by omega
      rw [hmin]
      simp
    have h2 : sliceFile (k + 1) path (k + 2) (k + 1) (k + 1) =
        Part.mk path (k + 2) (k + 1) 1 1 :: sliceFile (k + 1) path (k + 2) k (k + 2) := by
      simp only [sliceFile]
      rw [if_pos ⟨by omega, Nat.succ_pos k⟩]
      have hmin : min (k + 2 - (k + 1)) (k + 1) = 1 := by omega
      rw [hmin]
    rw [listPartsFile, if_neg (by omega), h1, h2,
      sliceFile_stop k (show ¬ k + 2 < k + 2 by omega)]

/-- Claim C4: `FS.ListParts` returns the empty part set for a non-existing
destination directory; a regular file of length `L > 0` is sliced into
consecutive `MAX_PART_SIZE` chunks with a final remainder — a file of size
exactly `MAX_PART_SIZE` yields one part and one of `MAX_PART_SIZE + 1`
yields two parts, the second of size 1 — every emitted part carrying
`file_size = L` and `actual_size = size`; a zero-length file yields exactly
one part with `file_size = 0`, `offset = 0`, `size = 0`. -/
theorem listParts_slicing_spec (mps : Nat) (hm : 0 < mps) :
    listPartsDir mps none = [] ∧
    (∀ path, listPartsFile mps path 0 = [Part.mk path 0 0 0 0]) ∧
    (∀ path, listPartsFile mps path mps = [Part.mk path mps 0 mps mps]) ∧
    (∀ path, listPartsFile mps path (mps + 1) =
      [Part.mk path (mps + 1) 0 mps mps, Part.mk path (mps + 1) mps 1 1]) ∧
    (∀ path L p, p ∈ listPartsFile mps path L →
      p.path = path ∧ p.fileSize = L ∧ p.actualSize = p.size ∧
        (p.size = mps ∨ p.offset + p.size = L)) := by
  refine ⟨rfl, fun path => rfl, fun path => listPartsFile_exact hm path,
    fun path => listPartsFile_exact_succ hm path, fun path L p hp => ?_⟩
  have h := mem_listPartsFile hp
  exact ⟨h.1, h.2.1, h.2.2.1, h.2.2.2.2⟩

/-- Witness for C4 with `MAX_PART_SIZE = 2`: empty listing for a missing
directory, the empty-file part, one part for a 2-byte file, two parts (the
second of size 1) for a 3-byte file, and the per-part fields of the
remainder part. -/
theorem listParts_slicing_spec_witness :
    listPartsDir 2 none = [] ∧
    listPartsFile 2 "x" 0 = [Part.mk "x" 0 0 0 0] ∧
    listPartsFile 2 "x" 2 = [Part.mk "x" 2 0 2 2] ∧
    listPartsFile 2 "x" 3 = [Part.mk "x" 3 0 2 2, Part.mk "x" 3 2 1 1] ∧
    (Part.mk "x" 3 2 1 1).fileSize = 3 ∧
    (Part.mk "x" 3 2 1 1).actualSize = (Part.mk "x" 3 2 1 1).size := by
  have h := listParts_slicing_spec 2 (by decide)
  have h5 := h.2.2.2.2 "x" 3 (Part.mk "x" 3 2 1 1) (by rw [h.2.2.2.1 "x"]; decide)
  exact ⟨h.1, h.2.1 "x", h.2.2.1 "x", h.2.2.2.1 "x", h5.2.1, h5.2.2.1⟩

/-! ## Progress accounting -/

theorem writeAll_sum {w : List Nat → Nat × Option String} {chunks : List (List Nat)}
    (h : ∀ ch ∈ chunks, (w ch).1 = ch.length) :
    ∀ c, writeAll w c chunks = c + (chunks.map List.length).sum := by
  induction chunks with
  | nil => intro c; simp [writeAll]
  | cons ch rest ih =>
    intro c
    show writeAll w (statWrite w c ch).2 rest = _
    rw [ih fun x hx => h x (List.mem_cons_of_mem _ hx)]
    show c + (w ch).1 + _ = _
    rw [h ch (List.mem_cons_self _ _)]
    simp only [List.map_cons, List.sum_cons]
    omega

/-- Claim C9: the shared `bytes_downloaded` counter is add-only:
`statWriter.Write` forwards the chunk, increases the counter by exactly the
byte count the wrapped writer reports (returning that result unchanged), so
the counter never decreases, and streaming chunks whose writes all succeed
leaves the counter at the total number of bytes streamed. -/
theorem statWrite_counter_spec (w : List Nat → Nat × Option String) (c : Nat)
    (chunk : List Nat) (chunks : List (List Nat)) :
    (statWrite w c chunk).2 = c + (w chunk).1 ∧
    c ≤ (statWrite w c chunk).2 ∧
    (statWrite w c chunk).1 = w chunk ∧
    ((∀ ch ∈ chunks, (w ch).1 = ch.length ∧ (w ch).2 = none) →
      writeAll w 0 chunks = (chunks.map List.length).sum) := by
  refine ⟨rfl, Nat.le_add_right _ _, rfl, fun h => ?_⟩
  rw [writeAll_sum (fun ch hch => (h ch hch).1) 0]
  omega

/-- Witness for C9: a writer that accepts every chunk in full; streaming
`[1,2]` then `[3]` yields counter `3`, and a single `Write` of `[5,6]` on
counter `4` yields `6`. -/
theorem statWrite_counter_spec_witness :
    (statWrite (fun ch => (ch.length, none)) 4 [5, 6]).2 = 4 + 2 ∧
    writeAll (fun ch => (ch.length, none)) 0 [[1, 2], [3]] = 3 := by
  have h := statWrite_counter_spec (fun ch => (ch.length, none)) 4 [5, 6] [[1, 2], [3]]
  exact ⟨h.1, h.2.2.2 (by decide)⟩

/-! ## The delete phase of `Restore.Run` -/

theorem mem_dedupPaths {ps : List Part} {q : String} :
    q ∈ dedupPaths ps ↔ ∃ p ∈ ps, p.path = q := by
  simp [dedupPaths, List.mem_dedup]

/-- Claim C5: in the delete phase every part of
`diff(dst_parts, src_parts)` has the whole file at its path deleted, each
distinct path exactly once; `delete_size` accumulates the sizes of the
deleted files; and a destination file all of whose parts are present in the
source is untouched and contributes nothing. -/
theorem delete_phase_spec (mps : Nat) (srcParts : List Part) (st : FsState)
    (dstParts toDelete : List Part) (r : FsState × Nat)
    (hnd : KeysNodup st)
    (_hdst : dstParts = listPartsDir mps (some st))
    (htd : toDelete = partsDifference dstParts (sortParts srcParts))
    (hr : r = deleteFiles st (dedupPaths toDelete)) :
    (∀ p ∈ toDelete, lookupSize r.1 p.path = none) ∧
    (dedupPaths toDelete).Nodup ∧
    r.2 = ((dedupPaths toDelete).map fun q => (lookupSize st q).getD 0).sum ∧
    (∀ q, (∀ p ∈ dstParts, p.path = q → (sortParts srcParts).any (sameKey p) = true) →
      q ∉ dedupPaths toDelete ∧ lookupSize r.1 q = lookupSize st q) := by
  subst hr
  refine ⟨fun p hp => ?_, List.nodup_dedup _,
    deleteFiles_snd hnd (List.nodup_dedup _), fun q hq => ?_⟩
  · rw [deleteFiles_lookup hnd, if_pos (mem_dedupPaths.mpr ⟨p, hp, rfl⟩)]
  · have hnot : q ∉ dedupPaths toDelete := by
      intro hc
      rcases mem_dedupPaths.mp hc with ⟨p, hp, hpq⟩
      rw [htd] at hp
      rcases mem_partsDifference.mp hp with ⟨hpd, hnomatch⟩
      have := hq p hpd hpq
      rw [List.any_eq_true] at this
      exact hnomatch this
    exact ⟨hnot, by rw [deleteFiles_lookup hnd, if_neg hnot]⟩

/-- Witness for C5: destination holding `a` (3 bytes, matched by the
source) and `stale` (5 bytes, unmatched): `stale` is deleted, `a` is
untouched and not even scheduled for deletion. -/
theorem delete_phase_spec_witness :
    lookupSize (deleteFiles [("a", 3), ("stale", 5)]
      (dedupPaths (partsDifference (listPartsDir 100 (some [("a", 3), ("stale", 5)]))
        (sortParts [Part.mk "a" 3 0 3 3])))).1 "stale" = none ∧
    "a" ∉ dedupPaths (partsDifference (listPartsDir 100 (some [("a", 3), ("stale", 5)]))
      (sortParts [Part.mk "a" 3 0 3 3])) ∧
    lookupSize (deleteFiles [("a", 3), ("stale", 5)]
      (dedupPaths (partsDifference (listPartsDir 100 (some [("a", 3), ("stale", 5)]))
        (sortParts [Part.mk "a" 3 0 3 3])))).1 "a" = some 3 := by
  have h := delete_phase_spec 100 [Part.mk "a" 3 0 3 3] [("a", 3), ("stale", 5)]
    (listPartsDir 100 (some [("a", 3), ("stale", 5)]))
    (partsDifference (listPartsDir 100 (some [("a", 3), ("stale", 5)]))
      (sortParts [Part.mk "a" 3 0 3 3]))
    (deleteFiles [("a", 3), ("stale", 5)]
      (dedupPaths (partsDifference (listPartsDir 100 (some [("a", 3), ("stale", 5)]))
        (sortParts [Part.mk "a" 3 0 3 3]))))
    (by decide) rfl rfl rfl
  have ha := h.2.2.2 "a" (by decide)
  refine ⟨?_, ha.1, by rw [ha.2]; rfl⟩
  exact h.1 (Part.mk "stale" 5 0 5 5) (by decide)

/-! ## The download phase ordering (Claim C6) -/

theorem mem_of_index {α : Type} {l : List α} {i : Nat} {a : α}
    (h : l[i]? = some a) : a ∈ l := by
  rcases List.getElem?_eq_some.mp h with ⟨hi, he⟩
  rw [← he]
  exact List.getElem_mem hi

theorem interleaveBy_filter_none {P : DlEv → Bool} :
    ∀ (sel : List Nat) (gs : List (List DlEv)) (t : List DlEv),
      interleaveBy sel gs = some t →
      (∀ g ∈ gs, ∀ e ∈ g, P e = false) → t.filter P = [] := by
  intro sel
  induction sel with
  | nil =>
    intro gs t h _
    simp only [interleaveBy] at h
    split at h
    · cases h
      rfl
    · cases h
  | cons i sel ih =>
    intro gs t h hall
    simp only [interleaveBy] at h
    cases hg : gs[i]? with
    | none => rw [hg] at h; cases h
    | some g =>
      cases g with
      | nil => rw [hg] at h; cases h
      | cons e rest =>
        rw [hg] at h
        obtain ⟨t', ht', rfl⟩ := Option.map_eq_some'.mp h
        have hPe : P e = false :=
          hall _ (mem_of_index hg) e (List.mem_cons_self _ _)
        rw [List.filter_cons_of_neg (by rw [hPe]; exact Bool.false_ne_true)]
        refine ih _ _ ht' fun g' hg' e' he' => ?_
        rcases List.mem_or_eq_of_mem_set hg' with hg' | hg'
        · exact hall g' hg' e' he'
        · subst hg'
          exact hall _ (mem_of_index hg) e' (List.mem_cons_of_mem _ he')

theorem interleaveBy_filter_single {P : DlEv → Bool} :
    ∀ (sel : List Nat) (gs : List (List DlEv)) (t : List DlEv) (i₀ : Nat)
      (g₀ : List DlEv),
      interleaveBy sel gs = some t →
      gs[i₀]? = some g₀ →
      (∀ e ∈ g₀, P e = true) →
      (∀ j g, j ≠ i₀ → gs[j]? = some g → ∀ e ∈ g, P e = false) →
      t.filter P = g₀ := by
  intro sel
  induction sel with
  | nil =>
    intro gs t i₀ g₀ h hg₀ _ _
    simp only [interleaveBy] at h
    split at h
    · cases h
      have hempty := List.all_eq_true.mp (by assumption) g₀ (mem_of_index hg₀)
      rw [List.isEmpty_iff] at hempty
      rw [hempty]
      rfl
    · cases h
  | cons i sel ih =>
    intro gs t i₀ g₀ h hg₀ hpos hneg
    simp only [interleaveBy] at h
    cases hg : gs[i]? with
    | none => rw [hg] at h; cases h
    | some g =>
      cases g with
      | nil => rw [hg] at h; cases h
      | cons e rest =>
        rw [hg] at h
        obtain ⟨t', ht', rfl⟩ := Option.map_eq_some'.mp h
        have hilen : i < gs.length := by
          by_contra hc
          rw [List.getElem?_eq_none (by omega)] at hg
          cases hg
        by_cases hii : i = i₀
        · subst hii
          rw [hg] at hg₀
          injection hg₀ with hg₀
          have hPe : P e = true := hpos e (by rw [← hg₀]; exact List.mem_cons_self _ _)
          rw [List.filter_cons_of_pos hPe]
          rw [← hg₀]
          congr 1
          refine ih _ _ i _ ht' (List.getElem?_set_self hilen) ?_ ?_
          · intro e' he'
            exact hpos e' (by rw [← hg₀]; exact List.mem_cons_of_mem _ he')
          · intro j g hj hjg
            rw [List.getElem?_set_ne (fun hc => hj hc.symm)] at hjg
            exact hneg j g hj hjg
        · have hPe : P e = false :=
            hneg i _ hii hg e (List.mem_cons_self _ _)
          rw [List.filter_cons_of_neg (by rw [hPe]; exact Bool.false_ne_true)]
          refine ih _ _ i₀ _ ht' ?_ hpos ?_
          · rw [List.getElem?_set_ne hii]
            exact hg₀
          · intro j g hj hjg
            by_cases hji : j = i
            · subst hji
              rw [List.getElem?_set_self hilen] at hjg
              injection hjg with hjg
              subst hjg
              exact fun e' he' => hneg j _ hii hg e' (List.mem_cons_of_mem _ he')
            · rw [List.getElem?_set_ne (fun hc => hji hc.symm)] at hjg
              exact hneg j g hj hjg

theorem taskTrace_path {g : List Part} {q : String} (hq : ∀ p ∈ g, p.path = q) :
    ∀ e ∈ taskTrace g, DlEv.path e = q := by
  intro e he
  unfold taskTrace at he
  rw [List.mem_flatMap] at he
  obtain ⟨p, hp, he⟩ := he
  have hpq : p.path = q := hq p ((List.perm_insertionSort partLe g).subset hp)
  rw [List.mem_cons, List.mem_singleton] at he
  rcases he with rfl | rfl
  · exact hpq
  · exact hpq

theorem wellOrdered_flat : ∀ (ps : List Part) (lastOff : Nat),
    List.Pairwise (fun p q => p.offset ≤ q.offset) ps →
    (∀ p ∈ ps, lastOff ≤ p.offset) →
    wellOrdered none lastOff (ps.flatMap fun p => [DlEv.openW p, DlEv.closeW p]) = true := by
  intro ps
  induction ps with
  | nil => intro lastOff _ _; rfl
  | cons p rest ih =>
    intro lastOff hsort hle
    rw [List.pairwise_cons] at hsort
    rw [List.flatMap_cons]
    show wellOrdered none lastOff
      (DlEv.openW p :: DlEv.closeW p :: rest.flatMap fun p => [DlEv.openW p, DlEv.closeW p]) = true
    simp only [wellOrdered, beq_self_eq_true, Bool.true_and]
    rw [decide_eq_true (hle p (List.mem_cons_self _ _))]
    rw [Bool.true_and]
    exact ih p.offset hsort.2 fun p' hp' => hsort.1 p' hp'

theorem wellOrdered_taskTrace {g : List Part} {q : String}
    (hq : ∀ p ∈ g, p.path = q) : wellOrdered none 0 (taskTrace g) = true := by
  unfold taskTrace
  refine wellOrdered_flat _ 0 ?_ fun p _ => Nat.zero_le _
  refine List.Pairwise.imp_of_mem ?_ (List.sorted_insertionSort partLe g)
  intro p p' hp hp' hle
  have h1 : p.path = q := hq p ((List.perm_insertionSort partLe g).subset hp)
  have h2 : p'.path = q := hq p' ((List.perm_insertionSort partLe g).subset hp')
  exact offset_le_of_partLe_same_path hle (h1.trans h2.symm)

theorem pathGroups_index {toCopy : List Part} {i : Nat} {g : List Part}
    (h : (pathGroups toCopy)[i]? = some g) :
    ∃ q, (dedupPaths toCopy)[i]? = some q ∧
      g = toCopy.filter fun p => p.path == q := by
  unfold pathGroups at h
  rw [List.getElem?_map] at h
  obtain ⟨q, hq, hg⟩ := Option.map_eq_some'.mp h
  exact ⟨q, hq, hg.symm⟩

/-- Claim C6: during the download phase each destination path's group is
handled by a single worker which opens and closes a fresh positioned writer
per part, in ascending offset order; in EVERY interleaving of the per-group
worker traces, the events of any one path are exactly that group's trace:
no two writers of the same path are ever open simultaneously, each is
closed before the next opens, and opens occur in ascending offset order. -/
theorem download_per_path_order (toCopy : List Part) (sel : List Nat)
    (t : List DlEv)
    (hint : interleaveBy sel ((pathGroups toCopy).map taskTrace) = some t) :
    ∀ q, wellOrdered none 0 (t.filter fun e => DlEv.path e == q) = true := by
  intro q
  by_cases hq : q ∈ dedupPaths toCopy
  · obtain ⟨i₀, hi₀⟩ := List.mem_iff_getElem?.mp hq
    have hg₀ : ((pathGroups toCopy).map taskTrace)[i₀]? =
        some (taskTrace (toCopy.filter fun p => p.path == q)) := by
      rw [List.getElem?_map]
      unfold pathGroups
      rw [List.getElem?_map, hi₀]
      rfl
    have hfil := @interleaveBy_filter_single (fun e => DlEv.path e == q) sel _ t i₀ _
      hint hg₀ ?_ ?_
    · rw [hfil]
      exact wellOrdered_taskTrace fun p hp => eq_of_beq (List.mem_filter.mp hp).2
    · intro e he
      have hp := taskTrace_path (fun p hp => eq_of_beq (List.mem_filter.mp hp).2) e he
      show (DlEv.path e == q) = true
      rw [hp]
      exact beq_self_eq_true q
    · intro j g hj hjg e he
      rw [List.getElem?_map] at hjg
      obtain ⟨g', hg', hgt⟩ := Option.map_eq_some'.mp hjg
      obtain ⟨q', hq', hgf⟩ := pathGroups_index hg'
      have hqq : q' ≠ q := by
        intro hc
        subst hc
        have heq : (dedupPaths toCopy)[j]? = (dedupPaths toCopy)[i₀]? := by
          rw [hq', hi₀]
        have hjlen : j < (dedupPaths toCopy).length := by
          rcases List.getElem?_eq_some.mp hq' with ⟨hl, _⟩
          exact hl
        have hnd : (dedupPaths toCopy).Nodup := List.nodup_dedup _
        exact hj (List.getElem?_inj hjlen hnd heq)
      have hpath : DlEv.path e = q' := by
        rw [← hgt, hgf] at he
        exact taskTrace_path (fun p hp => eq_of_beq (List.mem_filter.mp hp).2) e he
      show (DlEv.path e == q) = false
      rw [hpath]
      exact beq_eq_false_iff_ne.mpr hqq
  · have hfil := @interleaveBy_filter_none (fun e => DlEv.path e == q) sel _ t hint ?_
    · rw [hfil]
      rfl
    · intro g hg e he
      obtain ⟨j, hj⟩ := List.mem_iff_getElem?.mp hg
      rw [List.getElem?_map] at hj
      obtain ⟨g', hg', hgt⟩ := Option.map_eq_some'.mp hj
      obtain ⟨q', hq', hgf⟩ := pathGroups_index hg'
      have hpath : DlEv.path e = q' := by
        rw [← hgt, hgf] at he
        exact taskTrace_path (fun p hp => eq_of_beq (List.mem_filter.mp hp).2) e he
      have hqq : DlEv.path e ≠ q := by
        rw [hpath]
        intro hc
        subst hc
        exact hq (mem_of_index hq')
      show (DlEv.path e == q) = false
      exact beq_eq_false_iff_ne.mpr hqq

/-- Witness for C6: two single-part groups for paths `a` and `b`, run
concurrently with the interleaving open-a, open-b, close-a, close-b; the
events of path `a` are well ordered. -/
theorem download_per_path_order_witness :
    wellOrdered none 0
      ([DlEv.openW (Part.mk "a" 2 0 2 2), DlEv.openW (Part.mk "b" 1 0 1 1),
        DlEv.closeW (Part.mk "a" 2 0 2 2), DlEv.closeW (Part.mk "b" 1 0 1 1)].filter
        fun e => DlEv.path e == "a") = true :=
  download_per_path_order [Part.mk "a" 2 0 2 2, Part.mk "b" 1 0 1 1] [0, 1, 0, 1]
    [DlEv.openW (Part.mk "a" 2 0 2 2), DlEv.openW (Part.mk "b" 1 0 1 1),
      DlEv.closeW (Part.mk "a" 2 0 2 2), DlEv.closeW (Part.mk "b" 1 0 1 1)] rfl "a"

/-! ## The download phase as a state transformation (towards Claim C7) -/

theorem foldl_maxEnd_base (ps : List Part) (a : Nat) :
    a ≤ ps.foldl (fun acc p => max acc (p.offset + p.size)) a := by
  induction ps generalizing a with
  | nil => exact le_refl a
  | cons p rest ih => exact le_trans (le_max_left _ _) (ih _)

theorem foldl_maxEnd_le {X : Nat} :
    ∀ (ps : List Part) (a : Nat), a ≤ X → (∀ p ∈ ps, p.offset + p.size ≤ X) →
      ps.foldl (fun acc p => max acc (p.offset + p.size)) a ≤ X := by
  intro ps
  induction ps with
  | nil => intro a ha _; exact ha
  | cons p rest ih =>
    intro a ha h
    exact ih _ (max_le ha (h p (List.mem_cons_self _ _)))
      fun p' hp' => h p' (List.mem_cons_of_mem _ hp')

theorem le_foldl_maxEnd {ps : List Part} {p : Part} (hp : p ∈ ps) (a : Nat) :
    p.offset + p.size ≤ ps.foldl (fun acc p => max acc (p.offset + p.size)) a := by
  induction ps generalizing a with
  | nil => simp at hp
  | cons p' rest ih =>
    rcases List.mem_cons.mp hp with rfl | hp'
    · exact le_trans (le_max_right _ _) (foldl_maxEnd_base _ _)
    · exact ih hp' _

theorem tilesFrom_ends_le {L : Nat} : ∀ {ps : List Part} {off : Nat},
    tilesFrom off L ps = true → ∀ p ∈ ps, p.offset + p.size ≤ L := by
  intro ps
  induction ps with
  | nil => intro off _ p hp; simp at hp
  | cons p0 rest ih =>
    intro off h p hp
    simp only [tilesFrom, Bool.and_eq_true, beq_iff_eq] at h
    rcases List.mem_cons.mp hp with rfl | hp'
    · have := tilesFrom_off_le h.2
      omega
    · exact ih h.2 p hp'

theorem tilesFrom_last_end {L : Nat} : ∀ {ps : List Part} {off : Nat},
    tilesFrom off L ps = true → ps ≠ [] → ∃ p ∈ ps, p.offset + p.size = L := by
  intro ps
  induction ps with
  | nil => intro off _ h; exact absurd rfl h
  | cons p0 rest ih =>
    intro off h _
    simp only [tilesFrom, Bool.and_eq_true, beq_iff_eq] at h
    cases rest with
    | nil =>
      simp only [tilesFrom, beq_iff_eq] at h
      exact ⟨p0, List.mem_cons_self _ _, by omega⟩
    | cons r rest' =>
      obtain ⟨p, hp, he⟩ := ih h.2 (by simp)
      exact ⟨p, List.mem_cons_of_mem _ hp, he⟩

theorem foldl_writePart_lookup_other {q : String} :
    ∀ (ps : List Part) (s : FsState), (∀ p ∈ ps, p.path ≠ q) →
      lookupSize (ps.foldl writePart s) q = lookupSize s q := by
  intro ps
  induction ps with
  | nil => intro s _; rfl
  | cons p rest ih =>
    intro s h
    show lookupSize (rest.foldl writePart (writePart s p)) q = _
    rw [ih _ fun p' hp' => h p' (List.mem_cons_of_mem _ hp'),
      lookupSize_writePart_other fun hc => h p (List.mem_cons_self _ _) hc.symm]

theorem foldl_writePart_lookup_self {q : String} :
    ∀ (ps : List Part) (s : FsState), (∀ p ∈ ps, p.path = q) → ps ≠ [] →
      lookupSize (ps.foldl writePart s) q =
        some (ps.foldl (fun acc p => max acc (p.offset + p.size))
          ((lookupSize s q).getD 0)) := by
  intro ps
  induction ps with
  | nil => intro s _ h; exact absurd rfl h
  | cons p rest ih =>
    intro s h _
    have hp : p.path = q := h p (List.mem_cons_self _ _)
    cases rest with
    | nil =>
      show lookupSize (writePart s p) q = _
      rw [← hp, lookupSize_writePart_self]
      rfl
    | cons r rest' =>
      show lookupSize ((r :: rest').foldl writePart (writePart s p)) q = _
      rw [ih _ (fun p' hp' => h p' (List.mem_cons_of_mem _ hp')) (by simp)]
      rw [← hp, lookupSize_writePart_self, hp]
      rfl

theorem keysNodup_foldl_writePart :
    ∀ (ps : List Part) {s : FsState}, KeysNodup s → KeysNodup (ps.foldl writePart s) := by
  intro ps
  induction ps with
  | nil => intro s h; exact h
  | cons p rest ih => intro s h; exact ih (keysNodup_writePart h p)

theorem keysNodup_applyGroup {s : FsState} (h : KeysNodup s) (g : List Part) :
    KeysNodup (applyGroup s g) :=
  keysNodup_foldl_writePart _ h

theorem keysNodup_downloadAll {s : FsState} (h : KeysNodup s) (toCopy : List Part) :
    KeysNodup (downloadAll s toCopy) := by
  unfold downloadAll
  generalize pathGroups toCopy = gs
  induction gs generalizing s with
  | nil => exact h
  | cons g gs ih => exact ih (keysNodup_applyGroup h g)

theorem applyGroup_lookup_other {q : String} {g : List Part} (s : FsState)
    (h : ∀ p ∈ g, p.path ≠ q) :
    lookupSize (applyGroup s g) q = lookupSize s q :=
  foldl_writePart_lookup_other _ s
    fun p hp => h p ((List.perm_insertionSort partLe g).subset hp)

theorem applyGroup_lookup_self {q : String} {g : List Part} (s : FsState)
    (h : ∀ p ∈ g, p.path = q) (hne : g ≠ []) :
    lookupSize (applyGroup s g) q =
      some ((sortParts g).foldl (fun acc p => max acc (p.offset + p.size))
        ((lookupSize s q).getD 0)) := by
  refine foldl_writePart_lookup_self _ s
    (fun p hp => h p ((List.perm_insertionSort partLe g).subset hp)) ?_
  intro hc
  have hp := List.perm_insertionSort partLe g
  rw [show List.insertionSort partLe g = sortParts g from rfl, hc] at hp
  exact hne (List.Perm.eq_nil hp.symm)

theorem foldl_groups_lookup_not_mem {toCopy : List Part} {q : String} :
    ∀ (qs : List String) (s : FsState), (∀ q' ∈ qs, q' ≠ q) →
      lookupSize (qs.foldl
        (fun s' q' => applyGroup s' (toCopy.filter fun p => p.path == q')) s) q =
        lookupSize s q := by
  intro qs
  induction qs with
  | nil => intro s _; rfl
  | cons q' qs ih =>
    intro s hmem
    show lookupSize (qs.foldl _ (applyGroup s (toCopy.filter fun p => p.path == q'))) q = _
    rw [ih _ fun x hx => hmem x (List.mem_cons_of_mem _ hx)]
    exact applyGroup_lookup_other s fun p hp => by
      rw [eq_of_beq (List.mem_filter.mp hp).2]
      exact hmem q' (List.mem_cons_self _ _)

theorem foldl_groups_lookup_mem {toCopy : List Part} {q : String}
    (hgne : (toCopy.filter fun p => p.path == q) ≠ []) :
    ∀ (qs : List String) (s : FsState), qs.Nodup → q ∈ qs →
      lookupSize (qs.foldl
        (fun s' q' => applyGroup s' (toCopy.filter fun p => p.path == q')) s) q =
        some ((sortParts (toCopy.filter fun p => p.path == q)).foldl
          (fun acc p => max acc (p.offset + p.size)) ((lookupSize s q).getD 0)) := by
  intro qs
  induction qs with
  | nil => intro s _ hq; simp at hq
  | cons q' qs ih =>
    intro s hnd hq
    rw [List.nodup_cons] at hnd
    show lookupSize (qs.foldl _ (applyGroup s (toCopy.filter fun p => p.path == q'))) q = _
    by_cases hqq : q' = q
    · subst hqq
      rw [foldl_groups_lookup_not_mem qs _ fun x hx hc => hnd.1 (by rw [← hc]; exact hx)]
      exact applyGroup_lookup_self s
        (fun p hp => eq_of_beq (List.mem_filter.mp hp).2) hgne
    · have hq'' : q ∈ qs := by
        rcases List.mem_cons.mp hq with hc | hc
        · exact absurd hc.symm hqq
        · exact hc
      rw [ih _ hnd.2 hq'']
      rw [applyGroup_lookup_other s fun p hp => by
        rw [eq_of_beq (List.mem_filter.mp hp).2]
        exact fun hc => hqq hc]

theorem downloadAll_lookup_not_mem {toCopy : List Part} {q : String}
    (hq : q ∉ dedupPaths toCopy) (s : FsState) :
    lookupSize (downloadAll s toCopy) q = lookupSize s q := by
  unfold downloadAll pathGroups
  rw [List.foldl_map]
  exact foldl_groups_lookup_not_mem _ s fun q' hq' hc => hq (hc ▸ hq')

theorem downloadAll_lookup_mem {toCopy : List Part} {q : String}
    (hq : q ∈ dedupPaths toCopy) (s : FsState) :
    lookupSize (downloadAll s toCopy) q =
      some ((sortParts (toCopy.filter fun p => p.path == q)).foldl
        (fun acc p => max acc (p.offset + p.size)) ((lookupSize s q).getD 0)) := by
  unfold downloadAll pathGroups
  rw [List.foldl_map]
  have hgne : (toCopy.filter fun p => p.path == q) ≠ [] := by
    rcases mem_dedupPaths.mp hq with ⟨p, hp, hpq⟩
    intro hc
    have hpm : p ∈ toCopy.filter fun p => p.path == q :=
      List.mem_filter.mpr ⟨hp, by rw [hpq]; exact beq_self_eq_true q⟩
    rw [hc] at hpm
    simp at hpm
  exact foldl_groups_lookup_mem hgne _ s (List.nodup_dedup _) hq

/-! ## Canonical sources and the run pipeline (Claim C7) -/

theorem mem_listPartsDir {mps : Nat} {files : FsState} {p : Part} :
    p ∈ listPartsDir mps (some files) ↔ ∃ e ∈ files, p ∈ listPartsFile mps e.1 e.2 := by
  simp [listPartsDir, List.mem_flatMap]

theorem mem_sortParts {p : Part} {l : List Part} : p ∈ sortParts l ↔ p ∈ l :=
  (List.perm_insertionSort partLe l).mem_iff

theorem src_part_block {mps : Nat} {files : FsState} (hnd : KeysNodup files)
    {p : Part} (hp : p ∈ listPartsDir mps (some files)) :
    lookupSize files p.path = some p.fileSize ∧
      p ∈ listPartsFile mps p.path p.fileSize := by
  obtain ⟨e, he, hpe⟩ := mem_listPartsDir.mp hp
  have h := mem_listPartsFile hpe
  rw [h.1, h.2.1]
  exact ⟨mem_lookupSize hnd he, hpe⟩

theorem block_subset_listPartsDir {mps : Nat} {files : FsState} {q : String}
    {L : Nat} (h : (q, L) ∈ files) {p : Part} (hp : p ∈ listPartsFile mps q L) :
    p ∈ listPartsDir mps (some files) :=
  mem_listPartsDir.mpr ⟨(q, L), h, hp⟩

theorem match_in_canonical {mps : Nat} {files : FsState} (hndF : KeysNodup files)
    {p p' : Part} {q : String} {L : Nat} (hp : p ∈ listPartsFile mps q L)
    (hp' : p' ∈ listPartsDir mps (some files)) (hk : sameKey p p' = true) :
    lookupSize files q = some L ∧ p = p' := by
  have hb := src_part_block hndF hp'
  have heq : p = p' := canonical_part_eq hp hb.2 hk
  rcases mem_listPartsFile hp with ⟨hq, hL, _⟩
  refine ⟨?_, heq⟩
  rw [← hq, ← hL, heq]
  exact hb.1

theorem validate_ok_of_run_ok {mps : Nat} {srcParts0 : List Part} {st : FsState}
    {res : RunResult} (h : run mps srcParts0 st = Except.ok res) :
    validateParts (sortParts srcParts0) = Except.ok () := by
  unfold run at h
  cases hv : validateParts (sortParts srcParts0) with
  | error e =>
    simp only [hv] at h
    exact Except.noConfusion h
  | ok u =>
    cases u
    rfl

theorem run_eq_of_validate (mps : Nat) (srcParts0 : List Part) (st : FsState)
    (hv : validateParts (sortParts srcParts0) = Except.ok ()) :
    run mps srcParts0 st = Except.ok (RunResult.mk
      (downloadAll (deleteFiles st (dedupPaths (partsDifference
          (listPartsDir mps (some st)) (sortParts srcParts0)))).1
        (partsDifference (sortParts srcParts0) (listPartsDir mps (some
          (deleteFiles st (dedupPaths (partsDifference (listPartsDir mps (some st))
            (sortParts srcParts0)))).1))))
      (deleteFiles st (dedupPaths (partsDifference (listPartsDir mps (some st))
        (sortParts srcParts0)))).2
      (getPartsSize (partsDifference (sortParts srcParts0) (listPartsDir mps (some
        (deleteFiles st (dedupPaths (partsDifference (listPartsDir mps (some st))
          (sortParts srcParts0)))).1))))) := by
  unfold run
  simp only [hv]

theorem run_canonical_final_state (mps : Nat) (files st st1 : FsState)
    (src toDel toCopy : List Part)
    (hm : 0 < mps) (hndF : KeysNodup files) (hndS : KeysNodup st)
    (hsrc : src = listPartsDir mps (some files))
    (htd : toDel = partsDifference (listPartsDir mps (some st)) (sortParts src))
    (hst1 : st1 = (deleteFiles st (dedupPaths toDel)).1)
    (htc : toCopy = partsDifference (sortParts src) (listPartsDir mps (some st1))) :
    ∀ q, lookupSize (downloadAll st1 toCopy) q = lookupSize files q := by
  intro q
  have hnd1 : KeysNodup st1 := by
    rw [hst1]
    exact keysNodup_deleteFiles hndS _
  have hlook1 : ∀ q', lookupSize st1 q' =
      if q' ∈ dedupPaths toDel then none else lookupSize st q' := by
    intro q'
    rw [hst1]
    exact deleteFiles_lookup hndS _ q'
  -- a file of the destination which is not scheduled for deletion has all
  -- its parts matched in the source, which forces it to be a source file of
  -- the same size
  have hdel_of_nomatch : ∀ {q' : String} {L : Nat}, lookupSize st q' = some L →
      q' ∉ dedupPaths toDel → lookupSize files q' = some L := by
    intro q' L hsq hqd
    obtain ⟨p₀, hp₀⟩ := List.exists_mem_of_ne_nil _ (listPartsFile_ne_nil hm q' L)
    have hp₀dst : p₀ ∈ listPartsDir mps (some st) :=
      block_subset_listPartsDir (lookupSize_some_mem hsq) hp₀
    have hp₀path : p₀.path = q' := (mem_listPartsFile hp₀).1
    have hp₀notdel : p₀ ∉ toDel := fun hc =>
      hqd (mem_dedupPaths.mpr ⟨p₀, hc, hp₀path⟩)
    have hmatch : ∃ p' ∈ sortParts src, sameKey p₀ p' = true := by
      by_contra hc
      refine hp₀notdel ?_
      rw [htd]
      exact mem_partsDifference.mpr ⟨hp₀dst, hc⟩
    obtain ⟨p', hp's, hk⟩ := hmatch
    have hp'src : p' ∈ listPartsDir mps (some files) := by
      rw [← hsrc]
      exact mem_sortParts.mp hp's
    exact (match_in_canonical hndF hp₀ hp'src hk).1
  cases hF : lookupSize files q with
  | some F =>
    cases hs1 : lookupSize st1 q with
    | some L =>
      have h1 := hlook1 q
      rw [hs1] at h1
      by_cases hqd : q ∈ dedupPaths toDel
      · rw [if_pos hqd] at h1
        exact Option.noConfusion h1
      · rw [if_neg hqd] at h1
        have hsq : lookupSize st q = some L := h1.symm
        have hLF : L = F := by
          have hfq := hdel_of_nomatch hsq hqd
          rw [hF] at hfq
          injection hfq with hfq
          exact hfq.symm
        have hnotc : q ∉ dedupPaths toCopy := by
          intro hc
          rcases mem_dedupPaths.mp hc with ⟨p, hpc, hpq⟩
          rw [htc] at hpc
          rcases mem_partsDifference.mp hpc with ⟨hpsrc, hnomatch⟩
          have hpsrc' : p ∈ listPartsDir mps (some files) := by
            rw [← hsrc]
            exact mem_sortParts.mp hpsrc
          obtain ⟨hbl, hbb⟩ := src_part_block hndF hpsrc'
          rw [hpq, hF] at hbl
          have hfs : p.fileSize = F := by
            injection hbl with hbl
            exact hbl.symm
          refine hnomatch ⟨p, ?_, sameKey_refl p⟩
          have hql : (q, L) ∈ st1 := lookupSize_some_mem hs1
          refine block_subset_listPartsDir hql ?_
          have hfl : p.fileSize = L := by rw [hfs, hLF]
          rw [← hpq, ← hfl]
          exact hbb
        rw [downloadAll_lookup_not_mem hnotc, hs1, hLF]
    | none =>
      have hqF : (q, F) ∈ files := lookupSize_some_mem hF
      have hno1 : ∀ p' ∈ listPartsDir mps (some st1), p'.path ≠ q := by
        intro p' hp' hc
        obtain ⟨e, he, hpe⟩ := mem_listPartsDir.mp hp'
        have hpath : p'.path = e.1 := (mem_listPartsFile hpe).1
        have hl := mem_lookupSize hnd1 he
        rw [← hpath, hc, hs1] at hl
        exact Option.noConfusion hl
      have hblockc : ∀ p ∈ listPartsFile mps q F, p ∈ toCopy := by
        intro p hp
        rw [htc]
        refine mem_partsDifference.mpr ⟨?_, ?_⟩
        · refine mem_sortParts.mpr ?_
          rw [hsrc]
          exact block_subset_listPartsDir hqF hp
        · rintro ⟨p', hp', hk⟩
          have hpp : p'.path = p.path := (sameKey_iff.mp hk).1.symm
          have hppath : p.path = q := (mem_listPartsFile hp).1
          exact hno1 p' hp' (hpp.trans hppath)
      obtain ⟨p₀, hp₀⟩ := List.exists_mem_of_ne_nil _ (listPartsFile_ne_nil hm q F)
      have hqc : q ∈ dedupPaths toCopy :=
        mem_dedupPaths.mpr ⟨p₀, hblockc p₀ hp₀, (mem_listPartsFile hp₀).1⟩
      have hsub : ∀ p ∈ toCopy.filter fun p => p.path == q,
          p ∈ listPartsFile mps q F := by
        intro p hp
        rcases List.mem_filter.mp hp with ⟨hpc, hpq⟩
        have hpq' : p.path = q := eq_of_beq hpq
        rw [htc] at hpc
        rcases mem_partsDifference.mp hpc with ⟨hpsrc, _⟩
        have hpsrc' : p ∈ listPartsDir mps (some files) := by
          rw [← hsrc]
          exact mem_sortParts.mp hpsrc
        obtain ⟨hbl, hbb⟩ := src_part_block hndF hpsrc'
        rw [hpq', hF] at hbl
        have hfs : p.fileSize = F := by
          injection hbl with hbl
          exact hbl.symm
        rw [← hpq', ← hfs]
        exact hbb
      rw [downloadAll_lookup_mem hqc, hs1]
      have htiles := listPartsFile_tiles hm q F
      congr 1
      apply Nat.le_antisymm
      · refine foldl_maxEnd_le _ _ (Nat.zero_le F) ?_
        intro p hp
        exact tilesFrom_ends_le htiles p (hsub p (mem_sortParts.mp hp))
      · obtain ⟨pL, hpL, hpLe⟩ :=
          tilesFrom_last_end htiles (listPartsFile_ne_nil hm q F)
        have hpLg : pL ∈ toCopy.filter fun p => p.path == q :=
          List.mem_filter.mpr ⟨hblockc pL hpL,
            by rw [(mem_listPartsFile hpL).1]; exact beq_self_eq_true q⟩
        have hfold := le_foldl_maxEnd (mem_sortParts.mpr hpLg)
          ((none : Option Nat).getD 0)
        rw [hpLe] at hfold
        exact hfold
  | none =>
    have hnoc : q ∉ dedupPaths toCopy := by
      intro hc
      rcases mem_dedupPaths.mp hc with ⟨p, hpc, hpq⟩
      rw [htc] at hpc
      rcases mem_partsDifference.mp hpc with ⟨hpsrc, _⟩
      have hpsrc' : p ∈ listPartsDir mps (some files) := by
        rw [← hsrc]
        exact mem_sortParts.mp hpsrc
      have hbl := (src_part_block hndF hpsrc').1
      rw [hpq, hF] at hbl
      exact Option.noConfusion hbl
    rw [downloadAll_lookup_not_mem hnoc]
    have h1 := hlook1 q
    by_cases hqd : q ∈ dedupPaths toDel
    · rw [if_pos hqd] at h1
      exact h1
    · rw [if_neg hqd] at h1
      cases hsq : lookupSize st q with
      | none =>
        rw [hsq] at h1
        exact h1
      | some L =>
        exfalso
        have hfq := hdel_of_nomatch hsq hqd
        rw [hF] at hfq
        exact Option.noConfusion hfq

theorem second_run_diffs_empty (mps : Nat) (files st2 : FsState)
    (hndF : KeysNodup files) (hnd2 : KeysNodup st2)
    (hlook : ∀ q, lookupSize st2 q = lookupSize files q) :
    partsDifference (listPartsDir mps (some st2))
        (sortParts (listPartsDir mps (some files))) = [] ∧
    partsDifference (sortParts (listPartsDir mps (some files)))
        (listPartsDir mps (some st2)) = [] := by
  constructor
  · rw [partsDifference_nil_iff]
    intro p hp
    obtain ⟨e, he, hpe⟩ := mem_listPartsDir.mp hp
    have hl := mem_lookupSize hnd2 he
    rw [hlook e.1] at hl
    have hef : (e.1, e.2) ∈ files := lookupSize_some_mem hl
    refine ⟨p, ?_, sameKey_refl p⟩
    exact mem_sortParts.mpr (mem_listPartsDir.mpr ⟨(e.1, e.2), hef, hpe⟩)
  · rw [partsDifference_nil_iff]
    intro p hp
    have hpsrc : p ∈ listPartsDir mps (some files) := mem_sortParts.mp hp
    obtain ⟨hbl, hbb⟩ := src_part_block hndF hpsrc
    have hl2 : lookupSize st2 p.path = some p.fileSize := by
      rw [hlook]
      exact hbl
    refine ⟨p, ?_, sameKey_refl p⟩
    exact mem_listPartsDir.mpr ⟨(p.path, p.fileSize), lookupSize_some_mem hl2, hbb⟩

theorem run_noop (mps : Nat) (srcParts0 : List Part) (st : FsState)
    (hv : validateParts (sortParts srcParts0) = Except.ok ())
    (h1 : partsDifference (listPartsDir mps (some st)) (sortParts srcParts0) = [])
    (h2 : partsDifference (sortParts srcParts0) (listPartsDir mps (some st)) = []) :
    run mps srcParts0 st = Except.ok (RunResult.mk st 0 0) := by
  rw [run_eq_of_validate mps srcParts0 st hv, h1]
  show Except.ok (RunResult.mk
      (downloadAll st (partsDifference (sortParts srcParts0)
        (listPartsDir mps (some st)))) 0
      (getPartsSize (partsDifference (sortParts srcParts0)
        (listPartsDir mps (some st)))))
    = Except.ok (RunResult.mk st 0 0)
  rw [h2]
  rfl

/-- Claim C7 is false of the code as stated: a tiling-valid source whose
parts are NOT the canonical `MAX_PART_SIZE` slices (file `f` of size 10
split as `{0,3}` and `{3,7}`, both under `MAX_PART_SIZE = 100`) passes
validation, but the destination re-enumerates as one part `{0,10}`, so the
second run deletes the whole file and downloads it again, reporting
`delete_size = 10` and `download_size = 10` instead of zero. -/
theorem run_second_not_noop :
    run 100 [Part.mk "f" 10 0 3 3, Part.mk "f" 10 3 7 7] [] =
      Except.ok (RunResult.mk [("f", 10)] 0 10) ∧
    run 100 [Part.mk "f" 10 0 3 3, Part.mk "f" 10 3 7 7] [("f", 10)] =
      Except.ok (RunResult.mk [("f", 10)] 10 10) ∧
    ¬ ((RunResult.mk [("f", 10)] 10 10).downloadSize = 0 ∧
       (RunResult.mk [("f", 10)] 10 10).deleteSize = 0) :=
  ⟨rfl, rfl, by decide⟩

/-- Claim C7 (amended): for a source that is the canonical `MAX_PART_SIZE`
slicing of a file tree — which is what the backup writer and the local
enumeration both produce — a successful run is idempotent: running again
from the resulting destination leaves the state unchanged and reports
`delete_size = 0` and `download_size = 0`, because both diffs between the
(unchanged) source parts and the re-enumerated destination parts are
empty. -/
theorem run_idempotent_canonical (mps : Nat) (files st : FsState)
    (res : RunResult) (hm : 0 < mps) (hndF : KeysNodup files)
    (hndS : KeysNodup st)
    (h1 : run mps (listPartsDir mps (some files)) st = Except.ok res) :
    run mps (listPartsDir mps (some files)) res.st =
      Except.ok (RunResult.mk res.st 0 0) := by
  have hv := validate_ok_of_run_ok h1
  have hpipe := run_eq_of_validate mps (listPartsDir mps (some files)) st hv
  rw [hpipe] at h1
  injection h1 with h1
  have hst : res.st = downloadAll (deleteFiles st (dedupPaths (partsDifference
      (listPartsDir mps (some st)) (sortParts (listPartsDir mps (some files)))))).1
      (partsDifference (sortParts (listPartsDir mps (some files)))
        (listPartsDir mps (some (deleteFiles st (dedupPaths (partsDifference
          (listPartsDir mps (some st))
          (sortParts (listPartsDir mps (some files)))))).1))) := by
    rw [← h1]
  have hnd2 : KeysNodup res.st := by
    rw [hst]
    exact keysNodup_downloadAll (keysNodup_deleteFiles hndS _) _
  have hlook : ∀ q, lookupSize res.st q = lookupSize files q := by
    intro q
    rw [hst]
    exact run_canonical_final_state mps files st _ _ _ _ hm hndF hndS
      rfl rfl rfl rfl q
  have hde := second_run_diffs_empty mps files res.st hndF hnd2 hlook
  exact run_noop mps _ res.st hv hde.1 hde.2

/-- Witness for the amended C7: source = canonical slicing (at
`MAX_PART_SIZE = 4`) of `a` (10 bytes) and `b` (empty); after the first run
from an empty destination, the second run returns the same state with both
reported sizes zero. -/
theorem run_idempotent_canonical_witness :
    run 4 (listPartsDir 4 (some [("a", 10), ("b", 0)])) [("a", 10), ("b", 0)] =
      Except.ok (RunResult.mk [("a", 10), ("b", 0)] 0 0) :=
  run_idempotent_canonical 4 [("a", 10), ("b", 0)] []
    (RunResult.mk [("a", 10), ("b", 0)] 0 10) (by decide) (by decide) (by decide) rfl

/-! ## Validation accepts canonical listings (Claim C10) -/

theorem strLtB_ne {as bs : List Char} (h : strLtB as bs = true) : as ≠ bs := by
  intro hc
  subst hc
  rw [strLtB_irrefl] at h
  exact Bool.false_ne_true h

theorem path_ne_of_strLtB {a b : String} (h : strLtB a.data b.data = true) : a ≠ b :=
  fun hc => strLtB_ne h (congrArg String.data hc)

theorem partLt_of_path_lt {p q : Part} (h : strLtB p.path.data q.path.data = true) :
    partLt p q := by
  unfold partLt
  simp only [Bool.or_eq_true, Bool.and_eq_true, decide_eq_true_eq, beq_iff_eq]
  exact Or.inl h

theorem partLt_of_same_path {p q : Part} (hp : p.path = q.path)
    (ho : p.offset < q.offset) : partLt p q := by
  unfold partLt
  simp only [Bool.or_eq_true, Bool.and_eq_true, decide_eq_true_eq, beq_iff_eq]
  exact Or.inr ⟨hp, ho⟩

theorem foldlM_checkPart_same {L : Nat} {q : String} {pOld : Part} :
    ∀ (ps : List Part) (off : Nat),
      (∀ p ∈ ps, p.path = q ∧ p.actualSize = p.size) →
      tilesFrom off L ps = true →
      ps.foldlM checkPart (ValidSt.mk off pOld q) =
        Except.ok (ValidSt.mk L pOld q) := by
  intro ps
  induction ps with
  | nil =>
    intro off _ ht
    simp only [tilesFrom, beq_iff_eq] at ht
    rw [ht]
    rfl
  | cons p rest ih =>
    intro off hall ht
    simp only [tilesFrom, Bool.and_eq_true, beq_iff_eq] at ht
    obtain ⟨hpq, hpa⟩ := hall p (List.mem_cons_self _ _)
    have hstep : checkPart (ValidSt.mk off pOld q) p =
        Except.ok (ValidSt.mk (off + p.size) pOld q) := by
      unfold checkPart checkPartAt
      simp [hpq, ht.1, hpa]
    rw [List.foldlM_cons, hstep]
    show rest.foldlM checkPart (ValidSt.mk (off + p.size) pOld q) = _
    exact ih _ (fun p' hp' => hall p' (List.mem_cons_of_mem _ hp')) ht.2

theorem foldlM_checkPart_block {mps : Nat} (hm : 0 < mps) {q : String} {L : Nat}
    (st0 : ValidSt) (hq : q ≠ st0.path) (hclosed : st0.offset = st0.pOld.fileSize) :
    ∃ p₁, (listPartsFile mps q L).foldlM checkPart st0 =
        Except.ok (ValidSt.mk L p₁ q) ∧ p₁.fileSize = L := by
  obtain ⟨p₁, rest, hcons⟩ := List.exists_cons_of_ne_nil (listPartsFile_ne_nil hm q L)
  have htiles := listPartsFile_tiles hm q L
  rw [hcons] at htiles
  simp only [tilesFrom, Bool.and_eq_true, beq_iff_eq] at htiles
  have hp₁ : p₁ ∈ listPartsFile mps q L := by
    rw [hcons]
    exact List.mem_cons_self _ _
  have hp₁m := mem_listPartsFile hp₁
  refine ⟨p₁, ?_, hp₁m.2.1⟩
  rw [hcons, List.foldlM_cons]
  have hstep : checkPart st0 p₁ = Except.ok (ValidSt.mk (0 + p₁.size) p₁ q) := by
    unfold checkPart checkPartAt
    rw [if_pos (show p₁.path ≠ st0.path by rw [hp₁m.1]; exact hq)]
    rw [if_neg (show ¬ st0.offset ≠ st0.pOld.fileSize from fun hne => hne hclosed)]
    simp [htiles.1, hp₁m.2.2.1, hp₁m.1]
  rw [hstep]
  show rest.foldlM checkPart (ValidSt.mk (0 + p₁.size) p₁ q) = _
  refine foldlM_checkPart_same rest (0 + p₁.size) ?_ htiles.2
  intro p hp
  have hpm : p ∈ listPartsFile mps q L := by
    rw [hcons]
    exact List.mem_cons_of_mem _ hp
  have h := mem_listPartsFile hpm
  exact ⟨h.1, h.2.2.1⟩

theorem foldlM_checkPart_files {mps : Nat} (hm : 0 < mps) :
    ∀ (files : List (String × Nat)) (st0 : ValidSt),
      List.Pairwise (fun e f => strLtB e.1.data f.1.data = true) files →
      (∀ e ∈ files, e.1 ≠ st0.path) →
      st0.offset = st0.pOld.fileSize →
      ∃ st', (listPartsDir mps (some files)).foldlM checkPart st0 =
        Except.ok st' := by
  intro files
  induction files with
  | nil => intro st0 _ _ _; exact ⟨st0, rfl⟩
  | cons e rest ih =>
    intro st0 hsorted hne hclosed
    rw [List.pairwise_cons] at hsorted
    have hlist : listPartsDir mps (some (e :: rest)) =
        listPartsFile mps e.1 e.2 ++ listPartsDir mps (some rest) := by
      show (e :: rest).flatMap _ = _
      rw [List.flatMap_cons]
      rfl
    rw [hlist, List.foldlM_append]
    obtain ⟨p₁, hblock, hp₁L⟩ := foldlM_checkPart_block hm st0
      (hne e (List.mem_cons_self _ _)) hclosed
    rw [hblock]
    have hne' : ∀ f ∈ rest, f.1 ≠ (ValidSt.mk e.2 p₁ e.1).path := by
      intro f hf hc
      exact path_ne_of_strLtB (hsorted.1 f hf) hc.symm
    obtain ⟨st', hst'⟩ := ih (ValidSt.mk e.2 p₁ e.1) hsorted.2 hne' hp₁L.symm
    exact ⟨st', hst'⟩

theorem validateParts_listing_sorted {mps : Nat} (hm : 0 < mps)
    (files : List (String × Nat))
    (hsorted : List.Pairwise (fun e f => strLtB e.1.data f.1.data = true) files)
    (hne : ∀ e ∈ files, e.1 ≠ "") :
    validateParts (listPartsDir mps (some files)) = Except.ok () := by
  obtain ⟨st', hst'⟩ := foldlM_checkPart_files hm files (ValidSt.mk 0 Part.zero "")
    hsorted (fun e he => hne e he) rfl
  unfold validateParts
  rw [hst']

theorem fileLe_total (e f : String × Nat) : fileLe e f ∨ fileLe f e := by
  unfold fileLe
  rcases strLtB_connex e.1.data f.1.data with h | h | h
  · exact Or.inl (by simp [string_eq_of_data_eq h])
  · exact Or.inl (by simp [h])
  · exact Or.inr (by simp [h])

instance : IsTotal (String × Nat) fileLe := ⟨fileLe_total⟩

theorem fileLe_trans {e f g : String × Nat} (h1 : fileLe e f) (h2 : fileLe f g) :
    fileLe e g := by
  unfold fileLe at h1 h2 ⊢
  simp only [Bool.or_eq_true, beq_iff_eq] at h1 h2 ⊢
  rcases h1 with h1 | h1
  · rcases h2 with h2 | h2
    · exact Or.inl (strLtB_trans h1 h2)
    · exact Or.inl (by rw [← congrArg String.data h2]; exact h1)
  · rcases h2 with h2 | h2
    · exact Or.inl (by rw [congrArg String.data h1]; exact h2)
    · exact Or.inr (h1.trans h2)

instance : IsTrans (String × Nat) fileLe := ⟨fun _ _ _ => fileLe_trans⟩

theorem sortFiles_pairwise_lt {files : List (String × Nat)}
    (hnd : (files.map Prod.fst).Nodup) :
    List.Pairwise (fun e f => strLtB e.1.data f.1.data = true) (sortFiles files) := by
  have hsorted : List.Pairwise fileLe (sortFiles files) :=
    List.sorted_insertionSort fileLe files
  have hperm := List.perm_insertionSort fileLe files
  have hndkeys : ((sortFiles files).map Prod.fst).Nodup :=
    (List.Perm.nodup_iff (hperm.map Prod.fst)).mpr hnd
  have hpair : List.Pairwise (fun e f : String × Nat => e.1 ≠ f.1) (sortFiles files) :=
    List.pairwise_map.mp hndkeys
  refine (hsorted.and hpair).imp ?_
  intro e f h
  obtain ⟨hle, hne⟩ := h
  unfold fileLe at hle
  simp only [Bool.or_eq_true, beq_iff_eq] at hle
  rcases hle with h | h
  · exact h
  · exact absurd h hne

theorem listing_pairwise_partLt {mps : Nat} {files : List (String × Nat)}
    (hsorted : List.Pairwise (fun e f => strLtB e.1.data f.1.data = true) files) :
    List.Pairwise partLt (listPartsDir mps (some files)) := by
  show List.Pairwise partLt (files.flatMap fun e => listPartsFile mps e.1 e.2)
  rw [List.pairwise_flatMap]
  constructor
  · intro e _
    refine List.Pairwise.imp_of_mem ?_ pairwise_offsets_listPartsFile
    intro p p' hp hp' hlt
    exact partLt_of_same_path
      (by rw [(mem_listPartsFile hp).1, (mem_listPartsFile hp').1]) hlt
  · refine hsorted.imp ?_
    intro e f hef x hx y hy
    refine partLt_of_path_lt ?_
    rw [(mem_listPartsFile hx).1, (mem_listPartsFile hy).1]
    exact hef

theorem listing_pairwise_distinct {mps : Nat} {files : List (String × Nat)}
    (hnd : (files.map Prod.fst).Nodup) :
    List.Pairwise (fun p p' : Part => ¬(p.path = p'.path ∧ p.offset = p'.offset))
      (listPartsDir mps (some files)) := by
  show List.Pairwise _ (files.flatMap fun e => listPartsFile mps e.1 e.2)
  rw [List.pairwise_flatMap]
  constructor
  · intro e _
    refine List.Pairwise.imp ?_ pairwise_offsets_listPartsFile
    intro p p' hlt hc
    omega
  · have hpair : List.Pairwise (fun e f : String × Nat => e.1 ≠ f.1) files :=
      List.pairwise_map.mp hnd
    refine hpair.imp ?_
    intro e f hef x hx y hy hc
    apply hef
    rw [← (mem_listPartsFile hx).1, ← (mem_listPartsFile hy).1]
    exact hc.1

theorem sortParts_listing_eq {mps : Nat} {files : List (String × Nat)}
    (hnd : (files.map Prod.fst).Nodup) :
    sortParts (listPartsDir mps (some files)) =
      listPartsDir mps (some (sortFiles files)) := by
  have hperm : (sortParts (listPartsDir mps (some files))).Perm
      (listPartsDir mps (some (sortFiles files))) := by
    refine (List.perm_insertionSort partLe _).trans ?_
    show (files.flatMap fun e => listPartsFile mps e.1 e.2).Perm
      ((sortFiles files).flatMap fun e => listPartsFile mps e.1 e.2)
    exact List.Perm.flatMap_right _ (List.perm_insertionSort fileLe files).symm
  have hs1 : List.Pairwise partLt (sortParts (listPartsDir mps (some files))) := by
    have hle : List.Pairwise partLe (sortParts (listPartsDir mps (some files))) :=
      List.sorted_insertionSort partLe _
    have hdist : List.Pairwise
        (fun p p' : Part => ¬(p.path = p'.path ∧ p.offset = p'.offset))
        (sortParts (listPartsDir mps (some files))) := by
      refine (List.Perm.pairwise_iff ?_ (List.perm_insertionSort partLe _)).mpr
        (listing_pairwise_distinct hnd)
      intro x y h hc
      exact h ⟨hc.1.symm, hc.2.symm⟩
    refine (hle.and hdist).imp ?_
    intro p p' h
    exact partLt_of_partLe_ne h.1 h.2
  have hs2 : List.Pairwise partLt (listPartsDir mps (some (sortFiles files))) :=
    listing_pairwise_partLt (sortFiles_pairwise_lt hnd)
  exact List.eq_of_perm_of_sorted hperm hs1 hs2

/-- Claim C10: every per-file part list `FS.ListParts` emits is
tiling-valid by construction — offsets start at 0 and each equals the sum
of the preceding sizes (strictly increasing), the sizes sum to the file's
length, no part exceeds `MAX_PART_SIZE`, and `actual_size = size` on every
part — so a destination listing (any directory with well-formed, non-empty
relative paths) sorted the way the engine sorts always passes the engine's
validation walk. -/
theorem listing_tiling_valid (mps : Nat) (path : String) (L : Nat)
    (files : List (String × Nat)) (hm : 0 < mps)
    (hnd : (files.map Prod.fst).Nodup) (hne : ∀ e ∈ files, e.1 ≠ "") :
    tilesFrom 0 L (listPartsFile mps path L) = true ∧
    (∀ p ∈ listPartsFile mps path L, p.size ≤ mps ∧ p.actualSize = p.size) ∧
    List.Pairwise (fun p₁ p₂ => p₁.offset < p₂.offset) (listPartsFile mps path L) ∧
    validateParts (sortParts (listPartsDir mps (some files))) = Except.ok () := by
  refine ⟨listPartsFile_tiles hm path L, fun p hp => ?_,
    pairwise_offsets_listPartsFile, ?_⟩
  · have h := mem_listPartsFile hp
    exact ⟨h.2.2.2.1, h.2.2.1⟩
  · rw [sortParts_listing_eq hnd]
    refine validateParts_listing_sorted hm _ (sortFiles_pairwise_lt hnd) ?_
    intro e he
    exact hne e ((List.perm_insertionSort fileLe files).subset he)

/-- Witness for C10 at `MAX_PART_SIZE = 2`: the 5-byte file `x` tiles
`[0,5)` exactly, and the listing of a directory holding `d/a` (3 bytes) and
`c` (empty), enumerated out of order, passes the engine's validation after
sorting. -/
theorem listing_tiling_valid_witness :
    tilesFrom 0 5 (listPartsFile 2 "x" 5) = true ∧
    validateParts (sortParts (listPartsDir 2 (some [("d/a", 3), ("c", 0)]))) =
      Except.ok () := by
  have h := listing_tiling_valid 2 "x" 5 [("d/a", 3), ("c", 0)]
    (by decide) (by decide) (by decide)
  exact ⟨h.1, h.2.2.2⟩

end VMRestore
